import Mathlib

/-!
Verification of the socket.io-rs core against its specification.

The development shallowly embeds the packet codec (`src/packet.rs`), the
outbound attachment extraction (`src/data.rs`), the per-connection message
handler and ack table (`src/socket.rs`) and the connection registry
(`src/server.rs` + `src/socket.rs`).  Byte strings are modelled as
`List Char` (each `Char` holding one byte value; UTF-8 transcoding, which is
injective, is elided).  JSON payload values (serde_json's `Value`) are
modelled by the inductive `JValue`; the `F64` float variant is outside the
model.  Rust panics (`unwrap` on `None`, out-of-bounds indexing,
`unreachable!`) and the `unsafe` opcode transmute are made explicit as
distinguished result constructors.
-/

namespace SocketIO

/-- Left brace character (written via its code point). -/
def lbrace : Char := Char.ofNat 123

/-- Right brace character (written via its code point). -/
def rbrace : Char := Char.ofNat 125

/-- Is `c` an ASCII decimal digit? -/
def isDigitChar (c : Char) : Bool := 48 ≤ c.toNat && c.toNat ≤ 57

/-- The digit character for `d` (meaningful for `d < 10`). -/
def digitChar (d : Nat) : Char := Char.ofNat (48 + d)

/-- Numeric value of a digit character, as used by Rust's `to_digit(10)`. -/
def charToDigit (c : Char) : Option Nat :=
  if isDigitChar c then some (c.toNat - 48) else none

/-- Accumulator loop of decimal printing: prepends the digits of `n` to `acc`.
The first argument is fuel (`n` itself suffices). -/
def natToCharsCore : Nat → Nat → List Char → List Char
  | 0, _, acc => acc
  | fuel + 1, n, acc =>
      if n = 0 then acc
      else natToCharsCore fuel (n / 10) (digitChar (n % 10) :: acc)

/-- Decimal representation of a natural number, as Rust's `to_string`. -/
def natToChars (n : Nat) : List Char :=
  if n = 0 then ['0'] else natToCharsCore n n []

/-- Decimal representation of an integer, as Rust's `to_string`. -/
def intToChars (i : Int) : List Char :=
  if i < 0 then '-' :: natToChars i.natAbs else natToChars i.toNat

/-- Value of a digit string read most-significant-first, starting from `acc`:
one step of the `id = id * 10 + digit` loops of `from_bytes`. -/
def digitStep (acc : Nat) (c : Char) : Nat := 10 * acc + (c.toNat - 48)

/-- Value of a whole digit string read most-significant-first. -/
def digitsToNat (l : List Char) : Nat := l.foldl digitStep 0

/-! ## JSON values (serde_json `Value`, floats omitted)

`JValue` models serde_json 0.x `Value` over this repository's payloads:
`Null`, `Bool`, `I64`/`U64` (as unbounded `Int`), `String`, `Array`,
`Object`.  The `F64` variant is not representable here.  Object fields are
kept in their textual order (serde's `BTreeMap` keeps them sorted; every
object this repository constructs is already sorted). -/

mutual

inductive JValue where
  | null
  | bool (b : Bool)
  | int (n : Int)
  | str (s : List Char)
  | arr (items : JItems)
  | obj (fields : JFields)
deriving DecidableEq

inductive JItems where
  | nil
  | cons (v : JValue) (rest : JItems)
deriving DecidableEq

inductive JFields where
  | nil
  | cons (k : List Char) (v : JValue) (rest : JFields)
deriving DecidableEq

end

/-- Length of a JSON array. -/
def JItems.length : JItems → Nat
  | .nil => 0
  | .cons _ rest => 1 + rest.length

/-- The elements of a JSON array as a `List`. -/
def JItems.toList : JItems → List JValue
  | .nil => []
  | .cons v rest => v :: rest.toList

/-- Element lookup in a JSON array. -/
def JItems.get? : JItems → Nat → Option JValue
  | .nil, _ => none
  | .cons v _, 0 => some v
  | .cons _ rest, i + 1 => rest.get? i

/-- `Value::is_array`. -/
def JValue.isArr : JValue → Bool
  | .arr _ => true
  | _ => false

/-- The lowercase hexadecimal digit character for `d` (meaningful for
`d < 16`). -/
def hexDigitChar (d : Nat) : Char :=
  if d < 10 then Char.ofNat (48 + d) else Char.ofNat (87 + d)

/-- JSON string escaping of one character, per the JSON grammar serde emits:
quote, backslash and the named control escapes, `\u00XX` for the remaining
control characters, and every other character verbatim. -/
def escapeChar (c : Char) : List Char :=
  if c = '"' then ['\\', '"']
  else if c = '\\' then ['\\', '\\']
  else if c = Char.ofNat 8 then ['\\', 'b']
  else if c = Char.ofNat 12 then ['\\', 'f']
  else if c = '\n' then ['\\', 'n']
  else if c = '\r' then ['\\', 'r']
  else if c = '\t' then ['\\', 't']
  else if c.toNat < 32 then
    ['\\', 'u', '0', '0', hexDigitChar (c.toNat / 16), hexDigitChar (c.toNat % 16)]
  else [c]

/-- JSON string escaping of a whole string body. -/
def escapeString (s : List Char) : List Char := (s.map escapeChar).flatten

/-- The four characters of the JSON keyword `null`. -/
def nullChars : List Char := ['n', 'u', 'l', 'l']

/-- The four characters of the JSON keyword `true`. -/
def trueChars : List Char := ['t', 'r', 'u', 'e']

/-- The five characters of the JSON keyword `false`. -/
def falseChars : List Char := ['f', 'a', 'l', 's', 'e']

mutual

/-- serde_json `to_string`: compact JSON serialization of a `JValue`. -/
def serializeV : JValue → List Char
  | .null => nullChars
  | .bool true => trueChars
  | .bool false => falseChars
  | .int n => intToChars n
  | .str s => '"' :: escapeString s ++ ['"']
  | .arr items => '[' :: serializeItems items ++ [']']
  | .obj fields => lbrace :: serializeFields fields ++ [rbrace]

/-- Comma-separated serialization of array elements. -/
def serializeItems : JItems → List Char
  | .nil => []
  | .cons v .nil => serializeV v
  | .cons v rest => serializeV v ++ ',' :: serializeItems rest

/-- Comma-separated serialization of object fields. -/
def serializeFields : JFields → List Char
  | .nil => []
  | .cons k v .nil => '"' :: escapeString k ++ '"' :: ':' :: serializeV v
  | .cons k v rest =>
      '"' :: escapeString k ++ '"' :: ':' :: serializeV v ++ ',' :: serializeFields rest

end

/-! ## JSON parsing (serde_json `from_str`, floats rejected by the model) -/

/-- Is `c` JSON insignificant whitespace? -/
def isWs (c : Char) : Bool := c = ' ' || c = '\t' || c = '\n' || c = '\r'

/-- Skip insignificant whitespace. -/
def skipWs (s : List Char) : List Char := s.dropWhile isWs

/-- Numeric value of a hexadecimal digit character. -/
def hexVal (c : Char) : Option Nat :=
  if 48 ≤ c.toNat && c.toNat ≤ 57 then some (c.toNat - 48)
  else if 97 ≤ c.toNat && c.toNat ≤ 102 then some (c.toNat - 87)
  else if 65 ≤ c.toNat && c.toNat ≤ 70 then some (c.toNat - 55)
  else none

/-- Parse a JSON string body (the opening quote already consumed), returning
the unescaped contents and the input after the closing quote.  Handles the
standard escapes and `\uXXXX` (one code unit); raw control characters are
rejected. -/
def parseStringBody : List Char → Option (List Char × List Char)
  | [] => none
  | c :: rest =>
    if c = '"' then some ([], rest)
    else if c = '\\' then
      match rest with
      | [] => none
      | e :: rest2 =>
        if e = '"' then (parseStringBody rest2).map fun p => ('"' :: p.1, p.2)
        else if e = '\\' then (parseStringBody rest2).map fun p => ('\\' :: p.1, p.2)
        else if e = '/' then (parseStringBody rest2).map fun p => ('/' :: p.1, p.2)
        else if e = 'b' then (parseStringBody rest2).map fun p => (Char.ofNat 8 :: p.1, p.2)
        else if e = 'f' then (parseStringBody rest2).map fun p => (Char.ofNat 12 :: p.1, p.2)
        else if e = 'n' then (parseStringBody rest2).map fun p => ('\n' :: p.1, p.2)
        else if e = 'r' then (parseStringBody rest2).map fun p => ('\r' :: p.1, p.2)
        else if e = 't' then (parseStringBody rest2).map fun p => ('\t' :: p.1, p.2)
        else if e = 'u' then
          match rest2 with
          | h1 :: h2 :: h3 :: h4 :: rest3 =>
            match hexVal h1, hexVal h2, hexVal h3, hexVal h4 with
            | some a, some b, some x, some y =>
              let n := ((a * 16 + b) * 16 + x) * 16 + y
              if n.isValidChar then
                (parseStringBody rest3).map fun p => (Char.ofNat n :: p.1, p.2)
              else none
            | _, _, _, _ => none
          | _ => none
        else none
    else if c.toNat < 32 then none
    else (parseStringBody rest).map fun p => (c :: p.1, p.2)

/-- Parse an unsigned JSON number.  A fractional part or exponent marks an
`F64` value, which is outside this model and rejected here. -/
def parseNatNum (s : List Char) : Option (Nat × List Char) :=
  let ds := s.takeWhile isDigitChar
  let rest := s.dropWhile isDigitChar
  if ds = [] then none
  else if ds.head? = some '0' && ds.length != 1 then none
  else
    match rest with
    | c :: _ =>
      if c = '.' || c = 'e' || c = 'E' then none else some (digitsToNat ds, rest)
    | [] => some (digitsToNat ds, rest)

/-- Parse a JSON number (optional leading minus). -/
def parseNumber (s : List Char) : Option (JValue × List Char) :=
  match s with
  | c :: rest =>
    if c = '-' then (parseNatNum rest).map fun p => (.int (-(p.1 : Int)), p.2)
    else (parseNatNum (c :: rest)).map fun p => (.int (p.1 : Int), p.2)
  | [] => none

mutual

/-- Recursive-descent JSON value parser.  `fuel` bounds the nesting depth;
`fromStr` supplies enough for any input it accepts. -/
def parseValue : Nat → List Char → Option (JValue × List Char)
  | 0, _ => none
  | _ + 1, [] => none
  | fuel + 1, c :: rest =>
    if c = 'n' then
      match rest with
      | 'u' :: 'l' :: 'l' :: r => some (.null, r)
      | _ => none
    else if c = 't' then
      match rest with
      | 'r' :: 'u' :: 'e' :: r => some (.bool true, r)
      | _ => none
    else if c = 'f' then
      match rest with
      | 'a' :: 'l' :: 's' :: 'e' :: r => some (.bool false, r)
      | _ => none
    else if c = '"' then (parseStringBody rest).map fun p => (.str p.1, p.2)
    else if c = '[' then
      let r1 := skipWs rest
      if r1.head? = some ']' then some (.arr .nil, r1.tail)
      else (parseItems fuel r1).map fun p => (.arr p.1, p.2)
    else if c = lbrace then
      let r1 := skipWs rest
      if r1.head? = some rbrace then some (.obj .nil, r1.tail)
      else (parseFields fuel r1).map fun p => (.obj p.1, p.2)
    else if isDigitChar c || c = '-' then parseNumber (c :: rest)
    else none

/-- Parse the non-empty element list of a JSON array, consuming the
closing bracket. -/
def parseItems : Nat → List Char → Option (JItems × List Char)
  | 0, _ => none
  | fuel + 1, s =>
    (parseValue fuel s).bind fun p =>
      match skipWs p.2 with
      | c :: r2 =>
        if c = ',' then
          (parseItems fuel (skipWs r2)).map fun q => (.cons p.1 q.1, q.2)
        else if c = ']' then some (.cons p.1 .nil, r2)
        else none
      | [] => none

/-- Parse the non-empty field list of a JSON object, consuming the
closing brace. -/
def parseFields : Nat → List Char → Option (JFields × List Char)
  | 0, _ => none
  | fuel + 1, s =>
    match s with
    | [] => none
    | c :: rest =>
      if c = '"' then
        (parseStringBody rest).bind fun kp =>
          match skipWs kp.2 with
          | c2 :: r2 =>
            if c2 = ':' then
              (parseValue fuel (skipWs r2)).bind fun vp =>
                match skipWs vp.2 with
                | c3 :: r4 =>
                  if c3 = ',' then
                    (parseFields fuel (skipWs r4)).map fun q => (.cons kp.1 vp.1 q.1, q.2)
                  else if c3 = rbrace then some (.cons kp.1 vp.1 .nil, r4)
                  else none
                | [] => none
            else none
          | [] => none
      else none

end

/-- serde_json `from_str`: parse a complete JSON document (whole input,
modulo surrounding whitespace). -/
def fromStr (s : List Char) : Option JValue :=
  match parseValue ((skipWs s).length + 1) (skipWs s) with
  | some (v, r) => if skipWs r = [] then some v else none
  | none => none

/-! ## Decimal printing and parsing lemmas -/

theorem digitChar_toNat {d : Nat} (h : d < 10) : (digitChar d).toNat = 48 + d := by
  interval_cases d <;> decide

theorem isDigitChar_digitChar {d : Nat} (h : d < 10) : isDigitChar (digitChar d) = true := by
  interval_cases d <;> decide

theorem charToDigit_digitChar {d : Nat} (h : d < 10) : charToDigit (digitChar d) = some d := by
  interval_cases d <;> decide

theorem natToCharsCore_eq (fuel : Nat) : ∀ n acc, n ≤ fuel →
    natToCharsCore fuel n acc = ((Nat.digits 10 n).reverse.map digitChar) ++ acc := by
  induction fuel with
  | zero =>
    intro n acc h
    interval_cases n
    simp [natToCharsCore]
  | succ fuel ih =>
    intro n acc h
    by_cases hn : n = 0
    · subst hn; simp [natToCharsCore]
    · have hdiv : n / 10 ≤ fuel := by
        have := Nat.div_lt_self (Nat.pos_of_ne_zero hn) (by norm_num : 1 < 10)
        omega
      rw [natToCharsCore, if_neg hn, ih (n / 10) _ hdiv,
        Nat.digits_def' (by norm_num : (1 : ℕ) < 10) (Nat.pos_of_ne_zero hn)]
      simp

theorem natToChars_eq {n : Nat} (hn : n ≠ 0) :
    natToChars n = (Nat.digits 10 n).reverse.map digitChar := by
  rw [natToChars, if_neg hn, natToCharsCore_eq n n [] le_rfl, List.append_nil]

theorem natToChars_ne_nil (n : Nat) : natToChars n ≠ [] := by
  by_cases hn : n = 0
  · subst hn; simp [natToChars]
  · rw [natToChars_eq hn]
    simp [Nat.digits_ne_nil_iff_ne_zero, hn]

theorem mem_natToChars_digit {n : Nat} {c : Char} (h : c ∈ natToChars n) :
    isDigitChar c = true := by
  by_cases hn : n = 0
  · subst hn; simp [natToChars] at h; subst h; decide
  · rw [natToChars_eq hn] at h
    simp only [List.mem_map, List.mem_reverse] at h
    obtain ⟨d, hd, rfl⟩ := h
    exact isDigitChar_digitChar (Nat.digits_lt_base (by norm_num) hd)

theorem foldl_digitStep_rev (L : List Nat) : ∀ acc, (∀ d ∈ L, d < 10) →
    ((L.reverse.map digitChar).foldl digitStep acc) = acc * 10 ^ L.length + Nat.ofDigits 10 L := by
  induction L with
  | nil => intro acc _; simp [Nat.ofDigits_nil]
  | cons d L ih =>
    intro acc h
    have hd : d < 10 := h d (by simp)
    rw [List.reverse_cons, List.map_append, List.foldl_append,
      ih acc (fun x hx => h x (by simp [hx]))]
    simp only [List.map_cons, List.map_nil, List.foldl_cons, List.foldl_nil,
      Nat.ofDigits_cons, List.length_cons, digitStep, digitChar_toNat hd]
    have : 48 + d - 48 = d := by omega
    rw [this, pow_succ]
    ring

theorem digitsToNat_natToChars (n : Nat) : digitsToNat (natToChars n) = n := by
  by_cases hn : n = 0
  · subst hn; decide
  · rw [natToChars_eq hn, digitsToNat,
      foldl_digitStep_rev _ 0 (fun d hd => Nat.digits_lt_base (by norm_num) hd)]
    simp [Nat.ofDigits_digits]

theorem natToChars_head_zero {n : Nat} {t : List Char}
    (h : natToChars n = '0' :: t) : n = 0 ∧ t = [] := by
  by_cases hn : n = 0
  · subst hn; simp [natToChars] at h; simp [h]
  · exfalso
    have hmap := natToChars_eq hn ▸ h
    cases hrev : (Nat.digits 10 n).reverse with
    | nil =>
      have : Nat.digits 10 n = [] := by simpa using congrArg List.reverse hrev
      exact Nat.digits_ne_nil_iff_ne_zero.mpr hn this
    | cons d R =>
      rw [hrev, List.map_cons] at hmap
      have hdc : digitChar d = '0' := (List.cons.injEq _ _ _ _ ▸ hmap).1
      have hL : Nat.digits 10 n = R.reverse ++ [d] := by
        have := congrArg List.reverse hrev
        simpa using this
      have hdmem : d ∈ Nat.digits 10 n := by simp [hL]
      have hdlt : d < 10 := Nat.digits_lt_base (by norm_num) hdmem
      have hd0 : d = 0 := by
        have := congrArg Char.toNat hdc
        rw [digitChar_toNat hdlt] at this
        simpa using this
      have hlast := Nat.getLast_digit_ne_zero 10 (m := n) hn
      rw [List.getLast_congr _ _ hL] at hlast
      rw [List.getLast_append_singleton] at hlast
      exact hlast hd0

theorem takeWhile_dropWhile_append {p : Char → Bool} (xs : List Char) : ∀ ys,
    (∀ c ∈ xs, p c = true) → (∀ c, ys.head? = some c → p c = false) →
    (xs ++ ys).takeWhile p = xs ∧ (xs ++ ys).dropWhile p = ys := by
  induction xs with
  | nil =>
    intro ys _ hstop
    cases ys with
    | nil => simp
    | cons c ys => simp [List.takeWhile, List.dropWhile, hstop c rfl]
  | cons x xs ih =>
    intro ys hall hstop
    have hx : p x = true := hall x (by simp)
    obtain ⟨h1, h2⟩ := ih ys (fun c hc => hall c (by simp [hc])) hstop
    simp [List.takeWhile, List.dropWhile, hx, h1, h2]

/-- Heads that may legitimately follow a serialized number: not a digit and
not a fractional/exponent marker. -/
def stopHead (rest : List Char) : Prop :=
  ∀ c, rest.head? = some c → isDigitChar c = false ∧ c ≠ '.' ∧ c ≠ 'e' ∧ c ≠ 'E'

theorem parseNatNum_natToChars (n : Nat) (rest : List Char) (hstop : stopHead rest) :
    parseNatNum (natToChars n ++ rest) = some (n, rest) := by
  obtain ⟨htw, hdw⟩ := takeWhile_dropWhile_append (natToChars n) rest
    (fun c hc => mem_natToChars_digit hc) (fun c hc => (hstop c hc).1)
  rw [parseNatNum]
  simp only [htw, hdw]
  rw [if_neg (natToChars_ne_nil n)]
  have hlz : ¬((natToChars n).head? = some '0' ∧ (natToChars n).length ≠ 1) := by
    rintro ⟨hh, hl⟩
    cases hcn : natToChars n with
    | nil => exact natToChars_ne_nil n hcn
    | cons c t =>
      rw [hcn] at hh
      obtain rfl : c = '0' := by simpa using hh
      obtain ⟨_, rfl⟩ := natToChars_head_zero hcn
      rw [hcn] at hl
      simp at hl
  rw [if_neg (by simpa using hlz)]
  cases rest with
  | nil => simp [digitsToNat_natToChars]
  | cons c r =>
    obtain ⟨_, h1, h2, h3⟩ := hstop c rfl
    simp [h1, h2, h3, digitsToNat_natToChars]

/-! ## String escaping round trip -/

theorem hexVal_hexDigitChar {d : Nat} (h : d < 16) : hexVal (hexDigitChar d) = some d := by
  interval_cases d <;> decide

theorem escapeString_cons (c : Char) (s : List Char) :
    escapeString (c :: s) = escapeChar c ++ escapeString s := by
  simp [escapeString]

theorem parseStringBody_escape (s : List Char) : ∀ rest,
    parseStringBody (escapeString s ++ '"' :: rest) = some (s, rest) := by
  induction s with
  | nil =>
    intro rest
    simp only [escapeString, List.map_nil, List.flatten_nil, List.nil_append]
    unfold parseStringBody
    simp
  | cons c s ih =>
    intro rest
    rw [escapeString_cons, List.append_assoc]
    by_cases h1 : c = '"'
    · subst h1; unfold escapeChar parseStringBody; simp [ih]
    by_cases h2 : c = '\\'
    · subst h2; unfold escapeChar parseStringBody; simp [ih]
    by_cases h3 : c = Char.ofNat 8
    · subst h3; unfold escapeChar parseStringBody; simp [ih]
    by_cases h4 : c = Char.ofNat 12
    · subst h4; unfold escapeChar parseStringBody; simp [ih]
    by_cases h5 : c = '\n'
    · subst h5; unfold escapeChar parseStringBody; simp [ih]
    by_cases h6 : c = '\r'
    · subst h6; unfold escapeChar parseStringBody; simp [ih]
    by_cases h7 : c = '\t'
    · subst h7; unfold escapeChar parseStringBody; simp [ih]
    by_cases h8 : c.toNat < 32
    · have hesc : escapeChar c =
          ['\\', 'u', '0', '0', hexDigitChar (c.toNat / 16), hexDigitChar (c.toNat % 16)] := by
        rw [escapeChar, if_neg h1, if_neg h2, if_neg h3, if_neg h4, if_neg h5, if_neg h6,
          if_neg h7, if_pos h8]
      rw [hesc]
      have hhi : hexVal (hexDigitChar (c.toNat / 16)) = some (c.toNat / 16) :=
        hexVal_hexDigitChar (by omega)
      have hlo : hexVal (hexDigitChar (c.toNat % 16)) = some (c.toNat % 16) :=
        hexVal_hexDigitChar (by omega)
      have hn : ((0 * 16 + 0) * 16 + c.toNat / 16) * 16 + c.toNat % 16 = c.toNat := by omega
      have hvalid : (c.toNat).isValidChar := Or.inl (by omega)
      have h0 : hexVal '0' = some 0 := by decide
      simp only [List.cons_append, List.nil_append]
      unfold parseStringBody
      simp only [h0, hhi, hlo, hn, hvalid, if_true]
      simp [ih, Char.ofNat_toNat]
    · have hesc : escapeChar c = [c] := by
        rw [escapeChar, if_neg h1, if_neg h2, if_neg h3, if_neg h4, if_neg h5, if_neg h6,
          if_neg h7, if_neg h8]
      rw [hesc]
      simp only [List.cons_append, List.nil_append]
      unfold parseStringBody
      rw [if_neg h1, if_neg h2, if_neg (by simpa using h8)]
      simp [ih]

/-! ## Serialized-form head facts -/

theorem digit_ne {c d : Char} (h : isDigitChar c = true) (hd : isDigitChar d = false) :
    c ≠ d := by
  intro he; subst he; exact absurd h (by simp [hd])

theorem isWs_false_of_digit {c : Char} (h : isDigitChar c = true) : isWs c = false := by
  have h1 : c ≠ ' ' := digit_ne h (by decide)
  have h2 : c ≠ '\t' := digit_ne h (by decide)
  have h3 : c ≠ '\n' := digit_ne h (by decide)
  have h4 : c ≠ '\r' := digit_ne h (by decide)
  simp [isWs, h1, h2, h3, h4]

theorem natToChars_cons_digit (n : Nat) :
    ∃ c t, natToChars n = c :: t ∧ isDigitChar c = true := by
  cases hc : natToChars n with
  | nil => exact absurd hc (natToChars_ne_nil n)
  | cons c t =>
    exact ⟨c, t, rfl, mem_natToChars_digit (by rw [hc]; simp)⟩

theorem skipWs_cons_of_not_ws {c : Char} {t : List Char} (h : isWs c = false) :
    skipWs (c :: t) = c :: t := by
  simp [skipWs, List.dropWhile_cons, h]

theorem stopHead_cons {c : Char} {X : List Char}
    (h : isDigitChar c = false ∧ c ≠ '.' ∧ c ≠ 'e' ∧ c ≠ 'E') : stopHead (c :: X) := by
  intro c' hc'
  have he : c = c' := by simpa using hc'
  subst he
  exact h

theorem serializeV_head (v : JValue) :
    ∃ c t, serializeV v = c :: t ∧ isWs c = false ∧ c ≠ ']' ∧ c ≠ rbrace := by
  have hgood : ∀ c : Char, c ∈ ['n', 't', 'f', '"', '[', lbrace]
      → isWs c = false ∧ c ≠ ']' ∧ c ≠ rbrace := by
    intro c hc
    fin_cases hc <;> decide
  cases v with
  | null => exact ⟨'n', _, rfl, hgood 'n' (by decide)⟩
  | bool b => cases b with
    | true => exact ⟨'t', _, rfl, hgood 't' (by decide)⟩
    | false => exact ⟨'f', _, rfl, hgood 'f' (by decide)⟩
  | int i =>
    by_cases hi : i < 0
    · exact ⟨'-', natToChars i.natAbs, by simp [serializeV, intToChars, hi],
        by decide, by decide, by decide⟩
    · obtain ⟨c, t, hct, hd⟩ := natToChars_cons_digit i.toNat
      exact ⟨c, t, by simp [serializeV, intToChars, hi, hct], isWs_false_of_digit hd,
        digit_ne hd (by decide), digit_ne hd (by decide)⟩
  | str s => exact ⟨'"', _, rfl, hgood '"' (by decide)⟩
  | arr items => exact ⟨'[', _, rfl, hgood '[' (by decide)⟩
  | obj fields => exact ⟨lbrace, _, rfl, hgood lbrace (by decide)⟩

theorem serializeItems_head (v : JValue) (its : JItems) :
    ∃ c t, serializeItems (.cons v its) = c :: t ∧ isWs c = false ∧ c ≠ ']' := by
  obtain ⟨c, t, hct, hws, hbr, _⟩ := serializeV_head v
  cases its with
  | nil => exact ⟨c, t, by rw [serializeItems, hct], hws, hbr⟩
  | cons w its =>
    refine ⟨c, t ++ ',' :: serializeItems (.cons w its), ?_, hws, hbr⟩
    show serializeV v ++ ',' :: serializeItems (.cons w its) = _
    rw [hct]
    rfl

/-! ## Fuel accounting for the parser -/

mutual

/-- Parser nesting depth needed for a serialized value. -/
def neededV : JValue → Nat
  | .null => 1
  | .bool _ => 1
  | .int _ => 1
  | .str _ => 1
  | .arr items => 1 + neededI items
  | .obj fields => 1 + neededF fields

/-- Parser nesting depth needed for serialized array elements. -/
def neededI : JItems → Nat
  | .nil => 0
  | .cons v rest => 1 + max (neededV v) (neededI rest)

/-- Parser nesting depth needed for serialized object fields. -/
def neededF : JFields → Nat
  | .nil => 0
  | .cons _ v rest => 1 + max (neededV v) (neededF rest)

end

/-! ## JSON round trip -/

theorem parseNumber_intToChars (i : Int) (rest : List Char) (hs : stopHead rest) :
    parseNumber (intToChars i ++ rest) = some (.int i, rest) := by
  by_cases hi : i < 0
  · have h1 : intToChars i ++ rest = '-' :: (natToChars i.natAbs ++ rest) := by
      simp [intToChars, hi]
    have h2 : parseNumber ('-' :: (natToChars i.natAbs ++ rest))
        = (parseNatNum (natToChars i.natAbs ++ rest)).map
            fun p => (.int (-(p.1 : Int)), p.2) := rfl
    rw [h1, h2, parseNatNum_natToChars _ _ hs]
    have h3 : -(i.natAbs : Int) = i := by omega
    simp only [Option.map_some']
    rw [h3]
  · obtain ⟨c, t, hct, hd⟩ := natToChars_cons_digit i.toNat
    have h1 : intToChars i ++ rest = c :: (t ++ rest) := by
      simp [intToChars, hi, hct]
    have h2 : parseNumber (c :: (t ++ rest))
        = if c = '-' then (parseNatNum (t ++ rest)).map fun p => (.int (-(p.1 : Int)), p.2)
          else (parseNatNum (c :: (t ++ rest))).map fun p => (.int (p.1 : Int), p.2) := rfl
    rw [h1, h2, if_neg (digit_ne hd (by decide)),
      show c :: (t ++ rest) = natToChars i.toNat ++ rest by rw [← List.cons_append, ← hct],
      parseNatNum_natToChars _ _ hs]
    have h3 : ((i.toNat : Int)) = i := by omega
    simp only [Option.map_some']
    rw [h3]

theorem parseItems_step_close (fuel : Nat) (v : JValue) (X rest : List Char)
    (hpv : parseValue fuel X = some (v, ']' :: rest)) :
    parseItems (fuel + 1) X = some (.cons v .nil, rest) := by
  show (parseValue fuel X).bind _ = _
  rw [hpv]
  rfl

theorem parseItems_step_comma (fuel : Nat) (v : JValue) (X r : List Char)
    (hpv : parseValue fuel X = some (v, ',' :: r)) :
    parseItems (fuel + 1) X
      = (parseItems fuel (skipWs r)).map fun q => (.cons v q.1, q.2) := by
  show (parseValue fuel X).bind _ = _
  rw [hpv]
  rfl

theorem parseFields_step_close (fuel : Nat) (k : List Char) (v : JValue)
    (Y r rest : List Char)
    (hk : parseStringBody Y = some (k, ':' :: r))
    (hv : parseValue fuel (skipWs r) = some (v, rbrace :: rest)) :
    parseFields (fuel + 1) ('"' :: Y) = some (.cons k v .nil, rest) := by
  show (parseStringBody Y).bind _ = _
  rw [hk]
  show (parseValue fuel (skipWs r)).bind _ = _
  rw [hv]
  rfl

theorem parseFields_step_comma (fuel : Nat) (k : List Char) (v : JValue)
    (Y r r2 : List Char)
    (hk : parseStringBody Y = some (k, ':' :: r))
    (hv : parseValue fuel (skipWs r) = some (v, ',' :: r2)) :
    parseFields (fuel + 1) ('"' :: Y)
      = (parseFields fuel (skipWs r2)).map fun q => (.cons k v q.1, q.2) := by
  show (parseStringBody Y).bind _ = _
  rw [hk]
  show (parseValue fuel (skipWs r)).bind _ = _
  rw [hv]
  rfl

mutual

theorem parseV_ser : (v : JValue) → ∀ (fuel : Nat) (rest : List Char),
    neededV v ≤ fuel → stopHead rest →
    parseValue fuel (serializeV v ++ rest) = some (v, rest)
  | .null, fuel, rest, hf, _ => by
    cases fuel with
    | zero => simp [neededV] at hf
    | succ f =>
      simp only [serializeV, nullChars, List.cons_append, List.nil_append]
      unfold parseValue
      simp
  | .bool b, fuel, rest, hf, _ => by
    cases fuel with
    | zero => simp [neededV] at hf
    | succ f =>
      cases b <;>
        (simp only [serializeV, trueChars, falseChars, List.cons_append, List.nil_append]
         unfold parseValue
         simp)
  | .int i, fuel, rest, hf, hs => by
    cases fuel with
    | zero => simp [neededV] at hf
    | succ f =>
      by_cases hi : i < 0
      · simp only [serializeV, intToChars, if_pos hi, List.cons_append]
        unfold parseValue
        rw [if_neg (by decide), if_neg (by decide), if_neg (by decide), if_neg (by decide),
          if_neg (by decide), if_neg (by decide),
          if_pos (by decide : isDigitChar '-' || '-' = '-')]
        rw [show ('-' :: (natToChars i.natAbs ++ rest)) = intToChars i ++ rest by
          simp [intToChars, hi]]
        exact parseNumber_intToChars i rest hs
      · obtain ⟨c, t, hct, hd⟩ := natToChars_cons_digit i.toNat
        simp only [serializeV, intToChars, if_neg hi, hct, List.cons_append]
        unfold parseValue
        rw [if_neg (digit_ne hd (by decide)), if_neg (digit_ne hd (by decide)),
          if_neg (digit_ne hd (by decide)), if_neg (digit_ne hd (by decide)),
          if_neg (digit_ne hd (by decide)), if_neg (digit_ne hd (by decide)),
          if_pos (by simp [hd])]
        rw [show (c :: (t ++ rest)) = intToChars i ++ rest by
          simp [intToChars, hi, hct]]
        exact parseNumber_intToChars i rest hs
  | .str s, fuel, rest, hf, _ => by
    cases fuel with
    | zero => simp [neededV] at hf
    | succ f =>
      have hX : serializeV (.str s) ++ rest = '"' :: (escapeString s ++ '"' :: rest) := by
        show '"' :: escapeString s ++ ['"'] ++ rest = _
        simp
      rw [hX]
      unfold parseValue
      rw [if_neg (by decide), if_neg (by decide), if_neg (by decide), if_pos rfl,
        parseStringBody_escape s rest]
      rfl
  | .arr items, fuel, rest, hf, hs => by
    cases fuel with
    | zero => simp [neededV] at hf
    | succ f =>
      have hfI : neededI items ≤ f := by simp [neededV] at hf; omega
      cases items with
      | nil =>
        simp only [serializeV, serializeItems, List.cons_append, List.nil_append]
        unfold parseValue
        rw [if_neg (by decide), if_neg (by decide), if_neg (by decide), if_neg (by decide),
          if_pos rfl, skipWs_cons_of_not_ws (by decide)]
        simp
      | cons v its =>
        obtain ⟨c0, t0, hct, hws, hbr⟩ := serializeItems_head v its
        have hX : serializeV (.arr (.cons v its)) ++ rest
            = '[' :: (serializeItems (.cons v its) ++ ']' :: rest) := by
          show '[' :: serializeItems (.cons v its) ++ [']'] ++ rest = _
          simp
        rw [hX]
        unfold parseValue
        rw [if_neg (by decide), if_neg (by decide), if_neg (by decide), if_neg (by decide),
          if_pos rfl]
        have hskip : skipWs (serializeItems (.cons v its) ++ ']' :: rest)
            = serializeItems (.cons v its) ++ ']' :: rest := by
          rw [hct, List.cons_append, skipWs_cons_of_not_ws hws, ← List.cons_append, ← hct]
        have hhead : (serializeItems (.cons v its) ++ ']' :: rest).head? ≠ some ']' := by
          rw [hct]
          simp [hbr]
        simp only [hskip]
        rw [if_neg (by simpa using hhead),
          parseI_ser (JItems.cons v its) f rest (by simp) hfI]
        rfl
  | .obj fields, fuel, rest, hf, hs => by
    cases fuel with
    | zero => simp [neededV] at hf
    | succ f =>
      have hfF : neededF fields ≤ f := by simp [neededV] at hf; omega
      cases fields with
      | nil =>
        simp only [serializeV, serializeFields, List.cons_append, List.nil_append]
        unfold parseValue
        rw [if_neg (by decide), if_neg (by decide), if_neg (by decide), if_neg (by decide),
          if_neg (by decide), if_pos rfl, skipWs_cons_of_not_ws (by decide)]
        simp
      | cons k v fls =>
        have hX : serializeV (.obj (.cons k v fls)) ++ rest
            = lbrace :: (serializeFields (.cons k v fls) ++ rbrace :: rest) := by
          show lbrace :: serializeFields (.cons k v fls) ++ [rbrace] ++ rest = _
          simp
        rw [hX]
        unfold parseValue
        rw [if_neg (by decide), if_neg (by decide), if_neg (by decide), if_neg (by decide),
          if_neg (by decide), if_pos rfl]
        have hhd : ∃ t1, serializeFields (.cons k v fls) = '"' :: t1 := by
          cases fls with
          | nil => exact ⟨_, rfl⟩
          | cons k2 v2 fls2 => exact ⟨_, rfl⟩
        obtain ⟨t1, hct⟩ := hhd
        have hskip : skipWs (serializeFields (.cons k v fls) ++ rbrace :: rest)
            = serializeFields (.cons k v fls) ++ rbrace :: rest := by
          rw [hct, List.cons_append, skipWs_cons_of_not_ws (by decide), ← List.cons_append,
            ← hct]
        have hhead : (serializeFields (.cons k v fls) ++ rbrace :: rest).head? ≠ some rbrace := by
          rw [hct]
          simp only [List.cons_append, List.head?_cons, Option.some.injEq]
          decide
        simp only [hskip]
        rw [if_neg (by simpa using hhead),
          parseF_ser (JFields.cons k v fls) f rest (by simp) hfF]
        rfl

theorem parseI_ser : (items : JItems) → ∀ (fuel : Nat) (rest : List Char),
    items ≠ .nil → neededI items ≤ fuel →
    parseItems fuel (serializeItems items ++ ']' :: rest) = some (items, rest)
  | .nil, _, _, hne, _ => absurd rfl hne
  | .cons v its, fuel, rest, _, hf => by
    cases fuel with
    | zero => simp [neededI] at hf
    | succ f =>
      have hfv : neededV v ≤ f := by simp [neededI] at hf; omega
      have hfits : neededI its ≤ f := by simp [neededI] at hf; omega
      cases its with
      | nil =>
        have hX : serializeItems (.cons v .nil) ++ ']' :: rest
            = serializeV v ++ ']' :: rest := by rw [serializeItems]
        rw [hX]
        exact parseItems_step_close f v _ rest
          (parseV_ser v f (']' :: rest) hfv (stopHead_cons (by decide)))
      | cons w its2 =>
        have hX : serializeItems (.cons v (.cons w its2)) ++ ']' :: rest
            = serializeV v ++ ',' :: (serializeItems (.cons w its2) ++ ']' :: rest) := by
          show serializeV v ++ ',' :: serializeItems (.cons w its2) ++ ']' :: rest = _
          simp
        rw [hX]
        rw [parseItems_step_comma f v _ _
          (parseV_ser v f _ hfv (stopHead_cons (by decide)))]
        obtain ⟨c0, t0, hct, hws, _⟩ := serializeItems_head w its2
        rw [show skipWs (serializeItems (.cons w its2) ++ ']' :: rest)
            = serializeItems (.cons w its2) ++ ']' :: rest from by
          rw [hct, List.cons_append, skipWs_cons_of_not_ws hws, ← List.cons_append, ← hct]]
        rw [parseI_ser (JItems.cons w its2) f rest (by simp) hfits]
        rfl

theorem parseF_ser : (fields : JFields) → ∀ (fuel : Nat) (rest : List Char),
    fields ≠ .nil → neededF fields ≤ fuel →
    parseFields fuel (serializeFields fields ++ rbrace :: rest) = some (fields, rest)
  | .nil, _, _, hne, _ => absurd rfl hne
  | .cons k v fls, fuel, rest, _, hf => by
    cases fuel with
    | zero => simp [neededF] at hf
    | succ f =>
      have hfv : neededV v ≤ f := by simp [neededF] at hf; omega
      have hffls : neededF fls ≤ f := by simp [neededF] at hf; omega
      obtain ⟨cv, tv, hcv, hwsv, _, _⟩ := serializeV_head v
      have hskipv : ∀ T : List Char, skipWs (serializeV v ++ T) = serializeV v ++ T := by
        intro T
        rw [hcv, List.cons_append, skipWs_cons_of_not_ws hwsv, ← List.cons_append, ← hcv]
      cases fls with
      | nil =>
        have hX : serializeFields (.cons k v .nil) ++ rbrace :: rest
            = '"' :: (escapeString k ++ '"' :: (':' :: (serializeV v ++ rbrace :: rest))) := by
          show '"' :: escapeString k ++ '"' :: ':' :: serializeV v ++ rbrace :: rest = _
          simp
        rw [hX]
        exact parseFields_step_close f k v _ _ rest (parseStringBody_escape k _)
          (by rw [hskipv]
              exact parseV_ser v f (rbrace :: rest) hfv (stopHead_cons (by decide)))
      | cons k2 v2 fls2 =>
        have hX : serializeFields (.cons k v (.cons k2 v2 fls2)) ++ rbrace :: rest
            = '"' :: (escapeString k ++ '"' :: (':' :: (serializeV v
                ++ ',' :: (serializeFields (.cons k2 v2 fls2) ++ rbrace :: rest)))) := by
          show '"' :: escapeString k ++ '"' :: ':' :: serializeV v
              ++ ',' :: serializeFields (.cons k2 v2 fls2) ++ rbrace :: rest = _
          simp
        rw [hX]
        rw [parseFields_step_comma f k v _ _ _ (parseStringBody_escape k _)
          (by rw [hskipv]
              exact parseV_ser v f _ hfv (stopHead_cons (by decide)))]
        have hhd2 : ∃ t2, serializeFields (.cons k2 v2 fls2) = '"' :: t2 := by
          cases fls2 with
          | nil => exact ⟨_, rfl⟩
          | cons k3 v3 fls3 => exact ⟨_, rfl⟩
        obtain ⟨t2, hct2⟩ := hhd2
        rw [show skipWs (serializeFields (.cons k2 v2 fls2) ++ rbrace :: rest)
            = serializeFields (.cons k2 v2 fls2) ++ rbrace :: rest from by
          rw [hct2, List.cons_append, skipWs_cons_of_not_ws (by decide),
            ← List.cons_append, ← hct2]]
        rw [parseF_ser (JFields.cons k2 v2 fls2) f rest (by simp) hffls]
        rfl

end

theorem serializeItems_single (v : JValue) :
    serializeItems (.cons v .nil) = serializeV v := rfl

theorem serializeItems_cons_cons (v w : JValue) (its : JItems) :
    serializeItems (.cons v (.cons w its))
      = serializeV v ++ ',' :: serializeItems (.cons w its) := rfl

theorem serializeFields_single (k : List Char) (v : JValue) :
    serializeFields (.cons k v .nil)
      = '"' :: escapeString k ++ '"' :: ':' :: serializeV v := rfl

theorem serializeFields_cons_cons (k : List Char) (v : JValue) (k2 : List Char) (v2 : JValue)
    (fls : JFields) :
    serializeFields (.cons k v (.cons k2 v2 fls))
      = '"' :: escapeString k ++ '"' :: ':' :: serializeV v
          ++ ',' :: serializeFields (.cons k2 v2 fls) := rfl

theorem neededI_cons (v : JValue) (its : JItems) :
    neededI (.cons v its) = 1 + max (neededV v) (neededI its) := rfl

theorem neededF_cons (k : List Char) (v : JValue) (fls : JFields) :
    neededF (.cons k v fls) = 1 + max (neededV v) (neededF fls) := rfl

theorem serializeV_ne_nil (v : JValue) : serializeV v ≠ [] := by
  obtain ⟨c, t, hct, _, _, _⟩ := serializeV_head v
  simp [hct]

mutual

theorem neededV_le : (v : JValue) → neededV v ≤ (serializeV v).length
  | .null => by simp [neededV, serializeV, nullChars]
  | .bool b => by cases b <;> simp [neededV, serializeV, trueChars, falseChars]
  | .int i => by
    have h := serializeV_ne_nil (.int i)
    have := List.length_pos.mpr h
    simp only [neededV]
    omega
  | .str s => by simp [neededV, serializeV]
  | .arr items => by
    have h := neededI_le items
    simp only [neededV, serializeV, List.length_append, List.length_cons]
    omega
  | .obj fields => by
    have h := neededF_le fields
    simp only [neededV, serializeV, List.length_append, List.length_cons]
    omega

theorem neededI_le : (items : JItems) → neededI items ≤ (serializeItems items).length + 1
  | .nil => by simp [neededI]
  | .cons v its => by
    have hv := neededV_le v
    cases its with
    | nil =>
      simp only [neededI, serializeItems_single]
      omega
    | cons w its2 =>
      have hr := neededI_le (JItems.cons w its2)
      rw [neededI_cons]
      simp only [serializeItems_cons_cons, List.length_append, List.length_cons]
      omega

theorem neededF_le : (fields : JFields) → neededF fields ≤ (serializeFields fields).length + 1
  | .nil => by simp [neededF]
  | .cons k v fls => by
    have hv := neededV_le v
    cases fls with
    | nil =>
      simp only [neededF, serializeFields_single, List.length_append, List.length_cons]
      omega
    | cons k2 v2 fls2 =>
      have hr := neededF_le (JFields.cons k2 v2 fls2)
      rw [neededF_cons]
      simp only [serializeFields_cons_cons, List.length_append, List.length_cons]
      omega

end

/-- JSON round trip at the `from_str`/`to_string` level: parsing a serialized
value recovers it. -/
theorem fromStr_serializeV (v : JValue) : fromStr (serializeV v) = some v := by
  obtain ⟨c, t, hct, hws, _, _⟩ := serializeV_head v
  have hskip : skipWs (serializeV v) = serializeV v := by
    rw [hct]
    exact skipWs_cons_of_not_ws hws
  unfold fromStr
  rw [hskip]
  have hpv : parseValue ((serializeV v).length + 1) (serializeV v) = some (v, []) := by
    have h := parseV_ser v ((serializeV v).length + 1) []
      (le_trans (neededV_le v) (by omega)) (fun c hc => by simp at hc)
    simpa using h
  rw [hpv]
  rfl

/-! ## Packet codec (`src/packet.rs`)

`Opcode` and `Packet` mirror the Rust declarations.  The `namespace` field is
called `nsp` (`namespace` is a Lean keyword); attachment byte vectors are
`List Char`.  `from_bytes` returns a `DecodeResult` that makes the two
abnormal exits of the Rust code explicit: `panicked` models the
`parsed.as_array().unwrap()` panic, and `ubTransmute b` models the
`unsafe { mem::transmute(b) }` of a byte below `'0'` into an `Opcode`
(undefined behaviour). -/

inductive Opcode where
  | connect
  | disconnect
  | event
  | ack
  | error
  | binaryEvent
  | binaryAck
deriving DecidableEq

/-- The discriminant character of an opcode (`'0'`..`'6'`). -/
def Opcode.toChar : Opcode → Char
  | .connect => '0'
  | .disconnect => '1'
  | .event => '2'
  | .ack => '3'
  | .error => '4'
  | .binaryEvent => '5'
  | .binaryAck => '6'

/-- The opcode for a byte in `'0'..='6'` (the transmute's defined range). -/
def opcodeOfChar (c : Char) : Opcode :=
  if c = '0' then .connect
  else if c = '1' then .disconnect
  else if c = '2' then .event
  else if c = '3' then .ack
  else if c = '4' then .error
  else if c = '5' then .binaryEvent
  else .binaryAck

/-- `packet::Error` (the payloads of `JSONError`/`FromUtf8Error` are elided). -/
inductive PacketError where
  | invalidOpcode (b : Nat)
  | invalidPacket
  | packetDataNotArray
  | jsonError
  | fromUtf8Error
  | noEvent
  | ackIDMissing
  | nonBinaryHasAttachments
deriving DecidableEq

/-- `packet::Packet`. -/
structure Packet where
  nsp : Option (List Char)
  opcode : Opcode
  id : Option Nat
  attachments_num : Nat
  data : Option JValue
  attachments : Option (List (List Char))
deriving DecidableEq

/-- Result of `Packet::from_bytes`, with the abnormal exits explicit. -/
inductive DecodeResult where
  | ok (p : Packet)
  | fail (e : PacketError)
  | panicked
  | ubTransmute (b : Nat)
deriving DecidableEq

/-- The attachment-count loop of `from_bytes` (only run for binary opcodes):
consumes digits until `'-'`; consuming the final byte of the input (even the
`'-'` itself) or a non-digit is `InvalidPacket`. -/
def parseAttachLoop (acc : Nat) : List Char → Except PacketError (Nat × List Char)
  | [] => .ok (acc, [])
  | c :: rest =>
    if rest = [] then .error .invalidPacket
    else if c = '-' then .ok (acc, rest)
    else
      match charToDigit c with
      | some d => parseAttachLoop (10 * acc + d) rest
      | none => .error .invalidPacket

/-- The namespace step of `from_bytes`: if the next byte is `'/'`, take bytes
up to (and consuming) the next `','`.  (`String::from_utf8` cannot fail in
the character-level model.) -/
def parseNsp (s : List Char) : Option (List Char) × List Char :=
  match s with
  | c :: _ =>
    if c = '/' then
      (some (s.takeWhile fun c => c ≠ ','), (s.dropWhile fun c => c ≠ ',').drop 1)
    else (none, s)
  | [] => (none, s)

/-- The id loop of `from_bytes`: consume leading digits. -/
def parseIdLoop (acc : Nat) (has : Bool) : List Char → Nat × Bool × List Char
  | [] => (acc, has, [])
  | c :: rest =>
    if 48 ≤ c.toNat ∧ c.toNat ≤ 57 then
      parseIdLoop (10 * acc + (c.toNat - 48)) true rest
    else (acc, has, c :: rest)

/-- Result of the data step of `from_bytes`. -/
inductive DataResult where
  | ok (d : Option JValue)
  | fail (e : PacketError)
  | panicked
deriving DecidableEq

/-- The data step of `from_bytes`: for the four payload-bearing opcodes the
remaining bytes are parsed as JSON and the validity checks run, ending in
`parsed.as_array().unwrap().is_empty()` — a panic when the payload is not an
array (reachable for `Ack`/`BinaryAck`). -/
def parseData (op : Opcode) (att : Nat) (hasId : Bool) (rest : List Char) : DataResult :=
  match op with
  | .event | .binaryEvent | .ack | .binaryAck =>
    match fromStr rest with
    | none => .fail .jsonError
    | some parsed =>
      if (op = .event ∨ op = .binaryEvent) ∧ parsed.isArr = false then
        .fail .packetDataNotArray
      else if (op = .ack ∨ op = .binaryAck) ∧ hasId = false then
        .fail .ackIDMissing
      else if (op ≠ .binaryAck ∧ op ≠ .binaryEvent) ∧ att ≠ 0 then
        .fail .nonBinaryHasAttachments
      else
        match parsed with
        | .arr items => if items = .nil then .fail .noEvent else .ok (some parsed)
        | _ => .panicked
  | _ => .ok none

/-- Stage of `from_bytes` after the attachment prefix: namespace, id, data,
and assembly of the packet. -/
def from_bytes_afterAttach (op : Opcode) (att : Nat) (rest1 : List Char) : DecodeResult :=
  match parseData op att (parseIdLoop 0 false (parseNsp rest1).2).2.1
      (parseIdLoop 0 false (parseNsp rest1).2).2.2 with
  | .fail e => .fail e
  | .panicked => .panicked
  | .ok d =>
    .ok { nsp := (parseNsp rest1).1, attachments := none, attachments_num := att,
          opcode := op,
          id := if (parseIdLoop 0 false (parseNsp rest1).2).2.1
                then some (parseIdLoop 0 false (parseNsp rest1).2).1 else none,
          data := d }

/-- Stage of `from_bytes` after the opcode byte: the attachment prefix is
parsed only for the binary opcodes. -/
def from_bytes_afterOp (op : Opcode) (rest : List Char) : DecodeResult :=
  match (if op = .binaryAck ∨ op = .binaryEvent
         then parseAttachLoop 0 rest
         else .ok (0, rest)) with
  | .error e => .fail e
  | .ok (att, rest1) => from_bytes_afterAttach op att rest1

/-- `Packet::from_bytes`. -/
def Packet.from_bytes (bytes : List Char) : DecodeResult :=
  match bytes with
  | [] => .fail .invalidPacket
  | c :: rest =>
    if 54 < c.toNat then .fail (.invalidOpcode c.toNat)
    else if c.toNat < 48 then .ubTransmute c.toNat
    else from_bytes_afterOp (opcodeOfChar c) rest

/-- `Packet::encode`. -/
def Packet.encode (p : Packet) : List Char :=
  p.opcode.toChar ::
    ((if p.attachments_num ≠ 0 then natToChars p.attachments_num ++ ['-'] else []) ++
      (p.nsp.getD []) ++
      (if p.nsp.isSome ∧ p.id.isSome then [','] else []) ++
      (match p.id with | some i => natToChars i | none => []) ++
      (if p.nsp.isSome ∧ p.id.isNone ∧ p.data.isSome then [','] else []) ++
      (match p.data with | some d => serializeV d | none => []))

/-- `Packet::new_event`. -/
def Packet.new_event (nsp : Option (List Char)) (id : Option Nat) (attachments_num : Nat)
    (params : JValue) : Packet :=
  { nsp := nsp, attachments_num := attachments_num,
    opcode := if attachments_num = 0 then .event else .binaryEvent,
    id := id, data := some params, attachments := none }

/-- `Packet::new_ack`. -/
def Packet.new_ack (nsp : Option (List Char)) (id : Nat) (attachments_num : Nat)
    (params : JValue) : Packet :=
  { nsp := nsp, attachments_num := attachments_num,
    opcode := if attachments_num = 0 then .ack else .binaryAck,
    id := some id, data := some params, attachments := none }

/-- The `format!("{:?}", error)` Debug text of a `packet::Error` (the inner
payloads of `JSONError`/`FromUtf8Error` are elided). -/
def errorDebugChars : PacketError → List Char
  | .invalidOpcode b => ('I' :: 'n' :: 'v' :: 'a' :: 'l' :: 'i' :: 'd' :: 'O' :: 'p'
      :: 'c' :: 'o' :: 'd' :: 'e' :: '(' :: natToChars b) ++ [')']
  | .invalidPacket => ['I','n','v','a','l','i','d','P','a','c','k','e','t']
  | .packetDataNotArray =>
      ['P','a','c','k','e','t','D','a','t','a','N','o','t','A','r','r','a','y']
  | .jsonError => ['J','S','O','N','E','r','r','o','r']
  | .fromUtf8Error => ['F','r','o','m','U','t','f','8','E','r','r','o','r']
  | .noEvent => ['N','o','E','v','e','n','t']
  | .ackIDMissing => ['A','c','k','I','D','M','i','s','s','i','n','g']
  | .nonBinaryHasAttachments =>
      ['N','o','n','B','i','n','a','r','y','H','a','s','A','t','t','a','c','h',
       'm','e','n','t','s']

/-- `Packet::new_error`. -/
def Packet.new_error (nsp : Option (List Char)) (e : PacketError) : Packet :=
  { nsp := nsp, attachments_num := 0, opcode := .error, id := none,
    data := some (.str (errorDebugChars e)), attachments := none }

/-- `Packet::add_attachment`: append the frame, report whether the declared
count has been reached (the `debug_assert!` is a no-op in release builds and
not modelled). -/
def Packet.add_attachment (p : Packet) (bytes : List Char) : Packet × Bool :=
  let atts := (p.attachments.getD []) ++ [bytes]
  ({ p with attachments := some atts }, atts.length = p.attachments_num)

/-- `Packet::get_attachments`. -/
def Packet.get_attachments (p : Packet) : Option (List (List Char)) := p.attachments

/-- `Packet::has_attachments`. -/
def Packet.has_attachments (p : Packet) : Bool :=
  p.attachments.isSome || p.attachments_num ≠ 0

/-! ## Wellformedness predicates for packets -/

/-- Does an optional payload hold a non-empty JSON array? -/
def dataIsNonEmptyArr : Option JValue → Bool
  | some (.arr (.cons _ _)) => true
  | _ => false

/-- Namespace shape check: starts with `'/'` and contains no `','`. -/
def nspOkB : Option (List Char) → Bool
  | none => true
  | some n => (n.head? == some '/') && !(decide (',' ∈ n))

/-- The packet invariants of spec §3, as quoted by claim C1:
`attachments_expected > 0` iff the opcode is binary; `Event`/`BinaryEvent`
payloads are non-empty arrays; `Ack`/`BinaryAck` ids are present;
`Connect`/`Disconnect`/`Error` ids are absent (their payload is free). -/
def spec3Invariants (p : Packet) : Prop :=
  (0 < p.attachments_num ↔ (p.opcode = .binaryEvent ∨ p.opcode = .binaryAck)) ∧
  ((p.opcode = .event ∨ p.opcode = .binaryEvent) → dataIsNonEmptyArr p.data = true) ∧
  ((p.opcode = .ack ∨ p.opcode = .binaryAck) → p.id.isSome = true) ∧
  ((p.opcode = .connect ∨ p.opcode = .disconnect ∨ p.opcode = .error) → p.id = none)

instance (p : Packet) : Decidable (spec3Invariants p) := by
  unfold spec3Invariants
  infer_instance

/-- The domain on which encode/decode actually round-trips: spec §3
strengthened by what the code forces — no payload on
`Connect`/`Disconnect`/`Error` (their decoder ignores the payload bytes),
a non-empty array payload on `Ack`/`BinaryAck` (decode applies the
`NoEvent`/`unwrap` path to them too), a comma-free `'/'`-namespace, and an
empty attachments slot (decode always yields `attachments = None`). -/
def wfPacket (p : Packet) : Prop :=
  spec3Invariants p ∧
  ((p.opcode = .connect ∨ p.opcode = .disconnect ∨ p.opcode = .error) → p.data = none) ∧
  ((p.opcode = .ack ∨ p.opcode = .binaryAck) → dataIsNonEmptyArr p.data = true) ∧
  nspOkB p.nsp = true ∧
  p.attachments = none

instance (p : Packet) : Decidable (wfPacket p) := by
  unfold wfPacket
  infer_instance

theorem dataIsNonEmptyArr_shape {d : Option JValue} (h : dataIsNonEmptyArr d = true) :
    ∃ v its, d = some (.arr (.cons v its)) := by
  cases d with
  | none => simp [dataIsNonEmptyArr] at h
  | some v =>
    cases v with
    | arr items =>
      cases items with
      | nil => simp [dataIsNonEmptyArr] at h
      | cons v its => exact ⟨v, its, rfl⟩
    | null => simp [dataIsNonEmptyArr] at h
    | bool b => simp [dataIsNonEmptyArr] at h
    | int n => simp [dataIsNonEmptyArr] at h
    | str s => simp [dataIsNonEmptyArr] at h
    | obj fields => simp [dataIsNonEmptyArr] at h

theorem nspOkB_some {n : List Char} (h : nspOkB (some n) = true) :
    n.head? = some '/' ∧ ',' ∉ n := by
  simp [nspOkB] at h
  exact h

/-! ## Decode phase lemmas -/

theorem from_bytes_cons (op : Opcode) (rest : List Char) :
    Packet.from_bytes (op.toChar :: rest) = from_bytes_afterOp op rest := by
  cases op <;> rfl

theorem from_bytes_afterOp_nonbinary (op : Opcode) (rest : List Char)
    (h : ¬(op = .binaryAck ∨ op = .binaryEvent)) :
    from_bytes_afterOp op rest = from_bytes_afterAttach op 0 rest := by
  unfold from_bytes_afterOp
  rw [if_neg h]

theorem from_bytes_afterOp_binary (op : Opcode) (rest : List Char) (att : Nat)
    (rest1 : List Char) (h : op = .binaryAck ∨ op = .binaryEvent)
    (hloop : parseAttachLoop 0 rest = .ok (att, rest1)) :
    from_bytes_afterOp op rest = from_bytes_afterAttach op att rest1 := by
  unfold from_bytes_afterOp
  rw [if_pos h, hloop]

theorem from_bytes_afterAttach_eq (op : Opcode) (att : Nat) (rest1 : List Char)
    (nsp : Option (List Char)) (rest2 : List Char) (idv : Nat) (hasId : Bool)
    (rest3 : List Char)
    (h1 : parseNsp rest1 = (nsp, rest2))
    (h2 : parseIdLoop 0 false rest2 = (idv, hasId, rest3)) :
    from_bytes_afterAttach op att rest1 =
      match parseData op att hasId rest3 with
      | .fail e => .fail e
      | .panicked => .panicked
      | .ok d =>
        .ok { nsp := nsp, attachments := none, attachments_num := att,
              opcode := op, id := if hasId then some idv else none, data := d } := by
  unfold from_bytes_afterAttach
  simp only [h1, h2]

theorem parseAttachLoop_digits (ds : List Char) : ∀ (acc : Nat) (tail : List Char),
    tail ≠ [] → (∀ c ∈ ds, isDigitChar c = true) →
    parseAttachLoop acc (ds ++ '-' :: tail) = .ok (ds.foldl digitStep acc, tail) := by
  induction ds with
  | nil =>
    intro acc tail ht _
    simp only [List.nil_append, List.foldl_nil]
    unfold parseAttachLoop
    rw [if_neg ht, if_pos rfl]
  | cons d ds ih =>
    intro acc tail ht hall
    have hd : isDigitChar d = true := hall d (by simp)
    simp only [List.cons_append, List.foldl_cons]
    unfold parseAttachLoop
    rw [if_neg (by simp), if_neg (digit_ne hd (by decide)),
      show charToDigit d = some (d.toNat - 48) by simp [charToDigit, hd]]
    exact ih (10 * acc + (d.toNat - 48)) tail ht fun c hc => hall c (by simp [hc])

theorem parseAttachLoop_natToChars (n : Nat) (tail : List Char) (ht : tail ≠ []) :
    parseAttachLoop 0 (natToChars n ++ '-' :: tail) = .ok (n, tail) := by
  rw [parseAttachLoop_digits (natToChars n) 0 tail ht fun c hc => mem_natToChars_digit hc]
  rw [show (natToChars n).foldl digitStep 0 = digitsToNat (natToChars n) from rfl,
    digitsToNat_natToChars]

theorem parseNsp_cons (c : Char) (t : List Char) :
    parseNsp (c :: t) =
      if c = '/' then
        (some (List.takeWhile (fun c => decide (c ≠ ',')) (c :: t)),
          List.drop 1 (List.dropWhile (fun c => decide (c ≠ ',')) (c :: t)))
      else (none, c :: t) := rfl

theorem parseNsp_no {s : List Char} (h : ∀ c, s.head? = some c → c ≠ '/') :
    parseNsp s = (none, s) := by
  cases s with
  | nil => rfl
  | cons c t =>
    rw [parseNsp_cons, if_neg (h c rfl)]

theorem parseNsp_comma (n t : List Char) (hn : n.head? = some '/') (hc : ',' ∉ n) :
    parseNsp (n ++ ',' :: t) = (some n, t) := by
  obtain ⟨n', rfl⟩ : ∃ n', n = '/' :: n' := by
    cases n with
    | nil => simp at hn
    | cons c n' =>
      have hch : c = '/' := by simpa using hn
      exact ⟨n', by rw [hch]⟩
  have hall : ∀ c ∈ '/' :: n', (fun c => decide (c ≠ ',')) c = true := by
    intro c hcm
    simp only [decide_eq_true_iff]
    intro he
    exact hc (he ▸ hcm)
  obtain ⟨h1, h2⟩ := takeWhile_dropWhile_append ('/' :: n') (',' :: t) hall
    (fun c hch => by
      have hc2 : ',' = c := by simpa using hch
      subst hc2
      simp)
  simp only [List.cons_append] at h1 h2 ⊢
  rw [parseNsp_cons, if_pos rfl, h1, h2]
  rfl

theorem parseNsp_nocomma (n : List Char) (hn : n.head? = some '/') (hc : ',' ∉ n) :
    parseNsp n = (some n, []) := by
  obtain ⟨n', rfl⟩ : ∃ n', n = '/' :: n' := by
    cases n with
    | nil => simp at hn
    | cons c n' =>
      have hch : c = '/' := by simpa using hn
      exact ⟨n', by rw [hch]⟩
  have hall : ∀ c ∈ '/' :: n', (fun c => decide (c ≠ ',')) c = true := by
    intro c hcm
    simp only [decide_eq_true_iff]
    intro he
    exact hc (he ▸ hcm)
  obtain ⟨h1, h2⟩ := takeWhile_dropWhile_append ('/' :: n') [] hall (by simp)
  rw [List.append_nil] at h1 h2
  rw [parseNsp_cons, if_pos rfl, h1, h2]
  rfl

theorem parseIdLoop_stop {s : List Char}
    (h : ∀ c, s.head? = some c → isDigitChar c = false) :
    ∀ acc has, parseIdLoop acc has s = (acc, has, s) := by
  intro acc has
  cases s with
  | nil => rfl
  | cons c t =>
    unfold parseIdLoop
    rw [if_neg (by
      have := h c rfl
      simp [isDigitChar] at this
      omega)]

theorem parseIdLoop_digits (ds : List Char) : ∀ (acc : Nat) (has : Bool)
    (tail : List Char), ds ≠ [] → (∀ c ∈ ds, isDigitChar c = true) →
    (∀ c, tail.head? = some c → isDigitChar c = false) →
    parseIdLoop acc has (ds ++ tail) = (ds.foldl digitStep acc, true, tail) := by
  induction ds with
  | nil => intro _ _ _ hne; exact absurd rfl hne
  | cons d ds ih =>
    intro acc has tail _ hall htail
    have hd : isDigitChar d = true := hall d (by simp)
    simp only [List.cons_append, List.foldl_cons]
    unfold parseIdLoop
    rw [if_pos (by simp [isDigitChar] at hd; omega)]
    cases hds : ds with
    | nil =>
      simp only [List.nil_append]
      exact parseIdLoop_stop htail _ _
    | cons d2 ds2 =>
      rw [← hds]
      exact ih _ true tail (by simp [hds]) (fun c hc => hall c (by simp [hc])) htail

theorem parseIdLoop_natToChars (i : Nat) (tail : List Char)
    (htail : ∀ c, tail.head? = some c → isDigitChar c = false) :
    parseIdLoop 0 false (natToChars i ++ tail) = (i, true, tail) := by
  rw [parseIdLoop_digits (natToChars i) 0 false tail (natToChars_ne_nil i)
    (fun c hc => mem_natToChars_digit hc) htail]
  rw [show (natToChars i).foldl digitStep 0 = digitsToNat (natToChars i) from rfl,
    digitsToNat_natToChars]

theorem parseData_none (op : Opcode)
    (hop : op = .connect ∨ op = .disconnect ∨ op = .error)
    (att : Nat) (hasId : Bool) (rest : List Char) :
    parseData op att hasId rest = .ok none := by
  rcases hop with rfl | rfl | rfl <;> rfl

theorem parseData_arr (op : Opcode) (att : Nat) (hasId : Bool)
    (v : JValue) (its : JItems)
    (hop : op = .event ∨ op = .binaryEvent ∨ op = .ack ∨ op = .binaryAck)
    (hackid : (op = .ack ∨ op = .binaryAck) → hasId = true)
    (hatt : (op = .event ∨ op = .ack) → att = 0) :
    parseData op att hasId (serializeV (.arr (.cons v its)))
      = .ok (some (.arr (.cons v its))) := by
  have hjson : fromStr (serializeV (.arr (.cons v its))) = some (.arr (.cons v its)) :=
    fromStr_serializeV _
  rcases hop with rfl | rfl | rfl | rfl <;>
    simp [parseData, hjson, JValue.isArr, hackid, hatt]

theorem serializeV_arr_head (items : JItems) :
    (serializeV (.arr items)).head? = some '[' := rfl

theorem serializeV_arr_not_slash : ∀ c, ∀ items : JItems,
    (serializeV (.arr items)).head? = some c → c ≠ '/' := by
  intro c items hc
  rw [serializeV_arr_head] at hc
  have h : '[' = c := by simpa using hc
  subst h
  decide

theorem serializeV_arr_not_digit : ∀ c, ∀ items : JItems,
    (serializeV (.arr items)).head? = some c → isDigitChar c = false := by
  intro c items hc
  rw [serializeV_arr_head] at hc
  have h : '[' = c := by simpa using hc
  subst h
  decide

theorem afterAttach_none_n (op : Opcode)
    (hop : op = .connect ∨ op = .disconnect ∨ op = .error) :
    from_bytes_afterAttach op 0 [] = .ok ⟨none, op, none, 0, none, none⟩ := by
  rw [from_bytes_afterAttach_eq op 0 [] none [] 0 false [] rfl rfl,
    parseData_none op hop]
  rfl

theorem afterAttach_none_s (op : Opcode) (n : List Char)
    (hop : op = .connect ∨ op = .disconnect ∨ op = .error)
    (hhead : n.head? = some '/') (hnc : ',' ∉ n) :
    from_bytes_afterAttach op 0 n = .ok ⟨some n, op, none, 0, none, none⟩ := by
  rw [from_bytes_afterAttach_eq op 0 n (some n) [] 0 false []
    (parseNsp_nocomma n hhead hnc) rfl, parseData_none op hop]
  rfl

theorem afterAttach_data_nn (op : Opcode) (att : Nat) (v : JValue) (its : JItems)
    (hop4 : op = .event ∨ op = .binaryEvent ∨ op = .ack ∨ op = .binaryAck)
    (hnoack : ¬(op = .ack ∨ op = .binaryAck))
    (hatt : (op = .event ∨ op = .ack) → att = 0) :
    from_bytes_afterAttach op att (serializeV (.arr (.cons v its)))
      = .ok ⟨none, op, none, att, some (.arr (.cons v its)), none⟩ := by
  rw [from_bytes_afterAttach_eq op att _ none _ 0 false _
    (parseNsp_no fun c hc => serializeV_arr_not_slash c _ hc)
    (parseIdLoop_stop (fun c hc => serializeV_arr_not_digit c _ hc) 0 false),
    parseData_arr op att false v its hop4 (fun h => absurd h hnoack) hatt]
  rfl

theorem afterAttach_data_ni (op : Opcode) (att i : Nat) (v : JValue) (its : JItems)
    (hop4 : op = .event ∨ op = .binaryEvent ∨ op = .ack ∨ op = .binaryAck)
    (hatt : (op = .event ∨ op = .ack) → att = 0) :
    from_bytes_afterAttach op att (natToChars i ++ serializeV (.arr (.cons v its)))
      = .ok ⟨none, op, some i, att, some (.arr (.cons v its)), none⟩ := by
  obtain ⟨c0, t0, hct, hd0⟩ := natToChars_cons_digit i
  have h1 : parseNsp (natToChars i ++ serializeV (.arr (.cons v its)))
      = (none, natToChars i ++ serializeV (.arr (.cons v its))) := by
    refine parseNsp_no fun c hc => ?_
    rw [hct] at hc
    have h : c0 = c := by simpa using hc
    subst h
    exact digit_ne hd0 (by decide)
  have h2 : parseIdLoop 0 false (natToChars i ++ serializeV (.arr (.cons v its)))
      = (i, true, serializeV (.arr (.cons v its))) :=
    parseIdLoop_natToChars i _ (fun c hc => serializeV_arr_not_digit c _ hc)
  rw [from_bytes_afterAttach_eq op att _ none _ i true _ h1 h2,
    parseData_arr op att true v its hop4 (fun _ => rfl) hatt]
  rfl

theorem afterAttach_data_sn (op : Opcode) (att : Nat) (n : List Char) (v : JValue)
    (its : JItems)
    (hop4 : op = .event ∨ op = .binaryEvent ∨ op = .ack ∨ op = .binaryAck)
    (hnoack : ¬(op = .ack ∨ op = .binaryAck))
    (hatt : (op = .event ∨ op = .ack) → att = 0)
    (hhead : n.head? = some '/') (hnc : ',' ∉ n) :
    from_bytes_afterAttach op att (n ++ ',' :: serializeV (.arr (.cons v its)))
      = .ok ⟨some n, op, none, att, some (.arr (.cons v its)), none⟩ := by
  rw [from_bytes_afterAttach_eq op att _ (some n) _ 0 false _
    (parseNsp_comma n _ hhead hnc)
    (parseIdLoop_stop (fun c hc => serializeV_arr_not_digit c _ hc) 0 false),
    parseData_arr op att false v its hop4 (fun h => absurd h hnoack) hatt]
  rfl

theorem afterAttach_data_si (op : Opcode) (att i : Nat) (n : List Char) (v : JValue)
    (its : JItems)
    (hop4 : op = .event ∨ op = .binaryEvent ∨ op = .ack ∨ op = .binaryAck)
    (hatt : (op = .event ∨ op = .ack) → att = 0)
    (hhead : n.head? = some '/') (hnc : ',' ∉ n) :
    from_bytes_afterAttach op att
        (n ++ ',' :: (natToChars i ++ serializeV (.arr (.cons v its))))
      = .ok ⟨some n, op, some i, att, some (.arr (.cons v its)), none⟩ := by
  have h2 : parseIdLoop 0 false (natToChars i ++ serializeV (.arr (.cons v its)))
      = (i, true, serializeV (.arr (.cons v its))) :=
    parseIdLoop_natToChars i _ (fun c hc => serializeV_arr_not_digit c _ hc)
  rw [from_bytes_afterAttach_eq op att _ (some n) _ i true _
    (parseNsp_comma n _ hhead hnc) h2,
    parseData_arr op att true v its hop4 (fun _ => rfl) hatt]
  rfl

/-- Encode/decode round trip on the wellformed domain. -/
theorem from_bytes_encode (p : Packet) (h : wfPacket p) :
    Packet.from_bytes p.encode = .ok p := by
  obtain ⟨⟨hiff, hevdata, hackid, hclsid⟩, hclsdata, hackdata, hnspok, hattnone⟩ := h
  obtain ⟨nsp0, op0, id0, att0, data0, atts0⟩ := p
  simp only at hiff hevdata hackid hclsid hclsdata hackdata hnspok hattnone
  subst hattnone
  cases op0 with
  | connect =>
    have hid : id0 = none := hclsid (Or.inl rfl)
    have hdata : data0 = none := hclsdata (Or.inl rfl)
    have hatt : att0 = 0 := by
      by_contra h0
      rcases hiff.mp (Nat.pos_of_ne_zero h0) with h | h <;> simp at h
    subst hid; subst hdata; subst hatt
    cases nsp0 with
    | none =>
      have henc : Packet.encode ⟨none, .connect, none, 0, none, none⟩
          = Opcode.toChar .connect :: [] := by simp [Packet.encode]
      rw [henc, from_bytes_cons, from_bytes_afterOp_nonbinary _ _ (by simp)]
      exact afterAttach_none_n _ (Or.inl rfl)
    | some n =>
      obtain ⟨hhead, hnc⟩ := nspOkB_some hnspok
      have henc : Packet.encode ⟨some n, .connect, none, 0, none, none⟩
          = Opcode.toChar .connect :: n := by simp [Packet.encode]
      rw [henc, from_bytes_cons, from_bytes_afterOp_nonbinary _ _ (by simp)]
      exact afterAttach_none_s _ n (Or.inl rfl) hhead hnc
  | disconnect =>
    have hid : id0 = none := hclsid (Or.inr (Or.inl rfl))
    have hdata : data0 = none := hclsdata (Or.inr (Or.inl rfl))
    have hatt : att0 = 0 := by
      by_contra h0
      rcases hiff.mp (Nat.pos_of_ne_zero h0) with h | h <;> simp at h
    subst hid; subst hdata; subst hatt
    cases nsp0 with
    | none =>
      have henc : Packet.encode ⟨none, .disconnect, none, 0, none, none⟩
          = Opcode.toChar .disconnect :: [] := by simp [Packet.encode]
      rw [henc, from_bytes_cons, from_bytes_afterOp_nonbinary _ _ (by simp)]
      exact afterAttach_none_n _ (Or.inr (Or.inl rfl))
    | some n =>
      obtain ⟨hhead, hnc⟩ := nspOkB_some hnspok
      have henc : Packet.encode ⟨some n, .disconnect, none, 0, none, none⟩
          = Opcode.toChar .disconnect :: n := by simp [Packet.encode]
      rw [henc, from_bytes_cons, from_bytes_afterOp_nonbinary _ _ (by simp)]
      exact afterAttach_none_s _ n (Or.inr (Or.inl rfl)) hhead hnc
  | error =>
    have hid : id0 = none := hclsid (Or.inr (Or.inr rfl))
    have hdata : data0 = none := hclsdata (Or.inr (Or.inr rfl))
    have hatt : att0 = 0 := by
      by_contra h0
      rcases hiff.mp (Nat.pos_of_ne_zero h0) with h | h <;> simp at h
    subst hid; subst hdata; subst hatt
    cases nsp0 with
    | none =>
      have henc : Packet.encode ⟨none, .error, none, 0, none, none⟩
          = Opcode.toChar .error :: [] := by simp [Packet.encode]
      rw [henc, from_bytes_cons, from_bytes_afterOp_nonbinary _ _ (by simp)]
      exact afterAttach_none_n _ (Or.inr (Or.inr rfl))
    | some n =>
      obtain ⟨hhead, hnc⟩ := nspOkB_some hnspok
      have henc : Packet.encode ⟨some n, .error, none, 0, none, none⟩
          = Opcode.toChar .error :: n := by simp [Packet.encode]
      rw [henc, from_bytes_cons, from_bytes_afterOp_nonbinary _ _ (by simp)]
      exact afterAttach_none_s _ n (Or.inr (Or.inr rfl)) hhead hnc
  | event =>
    have hatt : att0 = 0 := by
      by_contra h0
      rcases hiff.mp (Nat.pos_of_ne_zero h0) with h | h <;> simp at h
    subst hatt
    obtain ⟨v, its, hd⟩ := dataIsNonEmptyArr_shape (hevdata (Or.inl rfl))
    subst hd
    cases id0 with
    | none =>
      cases nsp0 with
      | none =>
        have henc : Packet.encode ⟨none, .event, none, 0, some (.arr (.cons v its)), none⟩
            = Opcode.toChar .event :: serializeV (.arr (.cons v its)) := by
          simp [Packet.encode]
        rw [henc, from_bytes_cons, from_bytes_afterOp_nonbinary _ _ (by simp)]
        exact afterAttach_data_nn .event 0 v its (Or.inl rfl) (by simp) (fun _ => rfl)
      | some n =>
        obtain ⟨hhead, hnc⟩ := nspOkB_some hnspok
        have henc : Packet.encode ⟨some n, .event, none, 0, some (.arr (.cons v its)), none⟩
            = Opcode.toChar .event :: (n ++ ',' :: serializeV (.arr (.cons v its))) := by
          simp [Packet.encode]
        rw [henc, from_bytes_cons, from_bytes_afterOp_nonbinary _ _ (by simp)]
        exact afterAttach_data_sn .event 0 n v its (Or.inl rfl) (by simp) (fun _ => rfl)
          hhead hnc
    | some i =>
      cases nsp0 with
      | none =>
        have henc : Packet.encode ⟨none, .event, some i, 0, some (.arr (.cons v its)), none⟩
            = Opcode.toChar .event :: (natToChars i ++ serializeV (.arr (.cons v its))) := by
          simp [Packet.encode]
        rw [henc, from_bytes_cons, from_bytes_afterOp_nonbinary _ _ (by simp)]
        exact afterAttach_data_ni .event 0 i v its (Or.inl rfl) (fun _ => rfl)
      | some n =>
        obtain ⟨hhead, hnc⟩ := nspOkB_some hnspok
        have henc : Packet.encode ⟨some n, .event, some i, 0, some (.arr (.cons v its)), none⟩
            = Opcode.toChar .event
                :: (n ++ ',' :: (natToChars i ++ serializeV (.arr (.cons v its)))) := by
          simp [Packet.encode]
        rw [henc, from_bytes_cons, from_bytes_afterOp_nonbinary _ _ (by simp)]
        exact afterAttach_data_si .event 0 i n v its (Or.inl rfl) (fun _ => rfl) hhead hnc
  | ack =>
    have hatt : att0 = 0 := by
      by_contra h0
      rcases hiff.mp (Nat.pos_of_ne_zero h0) with h | h <;> simp at h
    subst hatt
    have hids : id0.isSome = true := hackid (Or.inl rfl)
    obtain ⟨i, rfl⟩ : ∃ i, id0 = some i := by
      cases id0 with
      | none => simp at hids
      | some i => exact ⟨i, rfl⟩
    obtain ⟨v, its, hd⟩ := dataIsNonEmptyArr_shape (hackdata (Or.inl rfl))
    subst hd
    cases nsp0 with
    | none =>
      have henc : Packet.encode ⟨none, .ack, some i, 0, some (.arr (.cons v its)), none⟩
          = Opcode.toChar .ack :: (natToChars i ++ serializeV (.arr (.cons v its))) := by
        simp [Packet.encode]
      rw [henc, from_bytes_cons, from_bytes_afterOp_nonbinary _ _ (by simp)]
      exact afterAttach_data_ni .ack 0 i v its (Or.inr (Or.inr (Or.inl rfl))) (fun _ => rfl)
    | some n =>
      obtain ⟨hhead, hnc⟩ := nspOkB_some hnspok
      have henc : Packet.encode ⟨some n, .ack, some i, 0, some (.arr (.cons v its)), none⟩
          = Opcode.toChar .ack
              :: (n ++ ',' :: (natToChars i ++ serializeV (.arr (.cons v its)))) := by
        simp [Packet.encode]
      rw [henc, from_bytes_cons, from_bytes_afterOp_nonbinary _ _ (by simp)]
      exact afterAttach_data_si .ack 0 i n v its (Or.inr (Or.inr (Or.inl rfl)))
        (fun _ => rfl) hhead hnc
  | binaryEvent =>
    have hattne : att0 ≠ 0 := by
      have := hiff.mpr (Or.inl rfl)
      omega
    obtain ⟨v, its, hd⟩ := dataIsNonEmptyArr_shape (hevdata (Or.inr rfl))
    subst hd
    have hop4 : Opcode.binaryEvent = Opcode.event ∨ Opcode.binaryEvent = Opcode.binaryEvent
        ∨ Opcode.binaryEvent = Opcode.ack ∨ Opcode.binaryEvent = Opcode.binaryAck :=
      Or.inr (Or.inl rfl)
    have hattv : (Opcode.binaryEvent = Opcode.event ∨ Opcode.binaryEvent = Opcode.ack)
        → att0 = 0 := by
      rintro (h | h) <;> simp at h
    cases id0 with
    | none =>
      cases nsp0 with
      | none =>
        have henc : Packet.encode
              ⟨none, .binaryEvent, none, att0, some (.arr (.cons v its)), none⟩
            = Opcode.toChar .binaryEvent
                :: (natToChars att0 ++ '-' :: serializeV (.arr (.cons v its))) := by
          simp [Packet.encode, hattne]
        rw [henc, from_bytes_cons,
          from_bytes_afterOp_binary _ _ att0 _ (Or.inr rfl)
            (parseAttachLoop_natToChars att0 _ (serializeV_ne_nil _))]
        exact afterAttach_data_nn .binaryEvent att0 v its hop4 (by simp) hattv
      | some n =>
        obtain ⟨hhead, hnc⟩ := nspOkB_some hnspok
        have henc : Packet.encode
              ⟨some n, .binaryEvent, none, att0, some (.arr (.cons v its)), none⟩
            = Opcode.toChar .binaryEvent
                :: (natToChars att0
                  ++ '-' :: (n ++ ',' :: serializeV (.arr (.cons v its)))) := by
          simp [Packet.encode, hattne]
        rw [henc, from_bytes_cons,
          from_bytes_afterOp_binary _ _ att0 _ (Or.inr rfl)
            (parseAttachLoop_natToChars att0 _ (by simp [serializeV_ne_nil]))]
        exact afterAttach_data_sn .binaryEvent att0 n v its hop4 (by simp) hattv hhead hnc
    | some i =>
      cases nsp0 with
      | none =>
        have henc : Packet.encode
              ⟨none, .binaryEvent, some i, att0, some (.arr (.cons v its)), none⟩
            = Opcode.toChar .binaryEvent
                :: (natToChars att0
                  ++ '-' :: (natToChars i ++ serializeV (.arr (.cons v its)))) := by
          simp [Packet.encode, hattne]
        rw [henc, from_bytes_cons,
          from_bytes_afterOp_binary _ _ att0 _ (Or.inr rfl)
            (parseAttachLoop_natToChars att0 _ (by simp [serializeV_ne_nil]))]
        exact afterAttach_data_ni .binaryEvent att0 i v its hop4 hattv
      | some n =>
        obtain ⟨hhead, hnc⟩ := nspOkB_some hnspok
        have henc : Packet.encode
              ⟨some n, .binaryEvent, some i, att0, some (.arr (.cons v its)), none⟩
            = Opcode.toChar .binaryEvent
                :: (natToChars att0
                  ++ '-' :: (n ++ ',' :: (natToChars i
                    ++ serializeV (.arr (.cons v its))))) := by
          simp [Packet.encode, hattne]
        rw [henc, from_bytes_cons,
          from_bytes_afterOp_binary _ _ att0 _ (Or.inr rfl)
            (parseAttachLoop_natToChars att0 _ (by simp [serializeV_ne_nil]))]
        exact afterAttach_data_si .binaryEvent att0 i n v its hop4 hattv hhead hnc
  | binaryAck =>
    have hattne : att0 ≠ 0 := by
      have := hiff.mpr (Or.inr rfl)
      omega
    have hids : id0.isSome = true := hackid (Or.inr rfl)
    obtain ⟨i, rfl⟩ : ∃ i, id0 = some i := by
      cases id0 with
      | none => simp at hids
      | some i => exact ⟨i, rfl⟩
    obtain ⟨v, its, hd⟩ := dataIsNonEmptyArr_shape (hackdata (Or.inr rfl))
    subst hd
    have hop4 : Opcode.binaryAck = Opcode.event ∨ Opcode.binaryAck = Opcode.binaryEvent
        ∨ Opcode.binaryAck = Opcode.ack ∨ Opcode.binaryAck = Opcode.binaryAck :=
      Or.inr (Or.inr (Or.inr rfl))
    have hattv : (Opcode.binaryAck = Opcode.event ∨ Opcode.binaryAck = Opcode.ack)
        → att0 = 0 := by
      rintro (h | h) <;> simp at h
    cases nsp0 with
    | none =>
      have henc : Packet.encode
            ⟨none, .binaryAck, some i, att0, some (.arr (.cons v its)), none⟩
          = Opcode.toChar .binaryAck
              :: (natToChars att0
                ++ '-' :: (natToChars i ++ serializeV (.arr (.cons v its)))) := by
        simp [Packet.encode, hattne]
      rw [henc, from_bytes_cons,
        from_bytes_afterOp_binary _ _ att0 _ (Or.inl rfl)
          (parseAttachLoop_natToChars att0 _ (by simp [serializeV_ne_nil]))]
      exact afterAttach_data_ni .binaryAck att0 i v its hop4 hattv
    | some n =>
      obtain ⟨hhead, hnc⟩ := nspOkB_some hnspok
      have henc : Packet.encode
            ⟨some n, .binaryAck, some i, att0, some (.arr (.cons v its)), none⟩
          = Opcode.toChar .binaryAck
              :: (natToChars att0
                ++ '-' :: (n ++ ',' :: (natToChars i
                  ++ serializeV (.arr (.cons v its))))) := by
        simp [Packet.encode, hattne]
      rw [henc, from_bytes_cons,
        from_bytes_afterOp_binary _ _ att0 _ (Or.inl rfl)
          (parseAttachLoop_natToChars att0 _ (by simp [serializeV_ne_nil]))]
      exact afterAttach_data_si .binaryAck att0 i n v its hop4 hattv hhead hnc

/-! ## Unreachability of `NonBinaryHasAttachments` -/

theorem parseAttachLoop_error (s : List Char) : ∀ acc e,
    parseAttachLoop acc s = .error e → e = .invalidPacket := by
  induction s with
  | nil => intro acc e h; simp [parseAttachLoop] at h
  | cons c rest ih =>
    intro acc e h
    unfold parseAttachLoop at h
    by_cases h1 : rest = []
    · rw [if_pos h1] at h
      simp at h
      exact h.symm
    · rw [if_neg h1] at h
      by_cases h2 : c = '-'
      · rw [if_pos h2] at h
        simp at h
      · rw [if_neg h2] at h
        cases hcd : charToDigit c with
        | some d =>
          rw [hcd] at h
          simp at h
          exact ih _ e h
        | none =>
          rw [hcd] at h
          simp at h
          exact h.symm

theorem parseData_ne (op : Opcode) (att : Nat) (hasId : Bool) (rest : List Char)
    (h : (op = .binaryAck ∨ op = .binaryEvent) ∨ att = 0) :
    parseData op att hasId rest ≠ .fail .nonBinaryHasAttachments := by
  cases op with
  | connect => simp [parseData]
  | disconnect => simp [parseData]
  | error => simp [parseData]
  | event =>
    have hatt : att = 0 := by
      rcases h with (h | h) | h
      · simp at h
      · simp at h
      · exact h
    subst hatt
    cases hfs : fromStr rest with
    | none => simp [parseData, hfs]
    | some parsed =>
      intro heq
      simp only [parseData, hfs] at heq
      split_ifs at heq <;> try simp_all
      all_goals (cases parsed <;> try simp_all)
      all_goals (split_ifs at heq <;> simp_all)
  | ack =>
    have hatt : att = 0 := by
      rcases h with (h | h) | h
      · simp at h
      · simp at h
      · exact h
    subst hatt
    cases hfs : fromStr rest with
    | none => simp [parseData, hfs]
    | some parsed =>
      intro heq
      simp only [parseData, hfs] at heq
      split_ifs at heq <;> try simp_all
      all_goals (cases parsed <;> try simp_all)
      all_goals (split_ifs at heq <;> simp_all)
  | binaryEvent =>
    cases hfs : fromStr rest with
    | none => simp [parseData, hfs]
    | some parsed =>
      intro heq
      simp only [parseData, hfs] at heq
      split_ifs at heq <;> try simp_all
      all_goals (cases parsed <;> try simp_all)
      all_goals (split_ifs at heq <;> simp_all)
  | binaryAck =>
    cases hfs : fromStr rest with
    | none => simp [parseData, hfs]
    | some parsed =>
      intro heq
      simp only [parseData, hfs] at heq
      split_ifs at heq <;> try simp_all
      all_goals (cases parsed <;> try simp_all)
      all_goals (split_ifs at heq <;> simp_all)

theorem afterAttach_ne (op : Opcode) (att : Nat) (rest1 : List Char)
    (h : (op = .binaryAck ∨ op = .binaryEvent) ∨ att = 0) :
    from_bytes_afterAttach op att rest1 ≠ .fail .nonBinaryHasAttachments := by
  unfold from_bytes_afterAttach
  intro hcontra
  cases hd : parseData op att (parseIdLoop 0 false (parseNsp rest1).2).2.1
      (parseIdLoop 0 false (parseNsp rest1).2).2.2 with
  | fail e =>
    rw [hd] at hcontra
    simp at hcontra
    subst hcontra
    exact parseData_ne op att _ _ h hd
  | panicked =>
    rw [hd] at hcontra
    simp at hcontra
  | ok d =>
    rw [hd] at hcontra
    simp at hcontra

theorem afterOp_ne (op : Opcode) (rest : List Char) :
    from_bytes_afterOp op rest ≠ .fail .nonBinaryHasAttachments := by
  unfold from_bytes_afterOp
  by_cases hb : op = .binaryAck ∨ op = .binaryEvent
  · rw [if_pos hb]
    cases hl : parseAttachLoop 0 rest with
    | error e =>
      have he := parseAttachLoop_error rest 0 e hl
      subst he
      simp
    | ok pr =>
      obtain ⟨att, rest1⟩ := pr
      simpa using afterAttach_ne op att rest1 (Or.inl hb)
  · rw [if_neg hb]
    simpa using afterAttach_ne op 0 rest (Or.inr rfl)

/-! ## Claim theorems for the packet codec -/

/-- A Connect packet carrying optional diagnostic text, as spec §3 allows. -/
def c1CounterPacket : Packet :=
  { nsp := none, opcode := .connect, id := none, attachments_num := 0,
    data := some (.str ['x']), attachments := none }

/-- Claim C1, counterexample: the packet `{opcode=Connect, payload="x"}`
satisfies the §3 invariants quoted by the claim, yet decoding its encoding
`0"x"` yields the packet with the payload dropped (`from_bytes` ignores the
remaining bytes for `Connect`/`Disconnect`/`Error`), so
`from_bytes(encode(p)) ≠ Ok(p)`. -/
theorem c1_roundtrip_counterexample :
    spec3Invariants c1CounterPacket ∧
    Packet.from_bytes c1CounterPacket.encode
      = .ok { c1CounterPacket with data := none } ∧
    Packet.from_bytes c1CounterPacket.encode ≠ .ok c1CounterPacket := by
  refine ⟨by decide, by decide, by decide⟩

/-- Claim C1 (amended): for every packet `p` satisfying the §3 invariants
strengthened by what the code requires — no payload on
`Connect`/`Disconnect`/`Error`, a non-empty array payload also on
`Ack`/`BinaryAck`, a comma-free namespace starting with `'/'`, and an empty
attachments slot — decoding the encoding returns the same packet:
`Packet.from_bytes (p.encode) = Ok p`. -/
theorem c1_roundtrip (p : Packet) (h : wfPacket p) :
    Packet.from_bytes p.encode = .ok p :=
  from_bytes_encode p h

/-- The scenario-S4 packet `{opcode=Event, nsp="/abc", id=1, payload=[1,2,3,4]}`. -/
def c1WitnessPacket : Packet :=
  { nsp := some ['/', 'a', 'b', 'c'], opcode := .event, id := some 1,
    attachments_num := 0,
    data := some (.arr (.cons (.int 1) (.cons (.int 2) (.cons (.int 3)
      (.cons (.int 4) .nil))))),
    attachments := none }

/-- Witness for C1: the round trip holds at the concrete scenario-S4 packet. -/
theorem c1_roundtrip_witness :
    wfPacket c1WitnessPacket ∧
    Packet.from_bytes c1WitnessPacket.encode = .ok c1WitnessPacket :=
  ⟨by decide, c1_roundtrip c1WitnessPacket (by decide)⟩

/-- Claim C2 (code bug): `from_bytes` is not total.  On input `35{}` — an Ack
with id 5 whose JSON payload parses to a non-array — the code reaches
`parsed.as_array().unwrap()` and panics; on an input whose first byte is `'#'`
(below `'0'`) the code transmutes the byte into an `Opcode`, which is
undefined behaviour, not a typed error. -/
theorem c2_from_bytes_not_total :
    Packet.from_bytes ['3', '5', lbrace, rbrace] = .panicked ∧
    Packet.from_bytes [Char.ofNat 35] = .ubTransmute 35 := by
  refine ⟨by decide, by decide⟩

/-- Claim C7 (code bug): a first byte above `'6'` is rejected with
`InvalidOpcode`, but a first byte below `'0'` (here `'.'` = 46) is not
rejected: it is transmuted into an `Opcode` instead of producing
`InvalidOpcode(46)`. -/
theorem c7_low_bytes_not_rejected :
    Packet.from_bytes ['7'] = .fail (.invalidOpcode 55) ∧
    Packet.from_bytes [Char.ofNat 46] = .ubTransmute 46 ∧
    ∀ e : PacketError, DecodeResult.ubTransmute 46 ≠ .fail e := by
  refine ⟨by decide, by decide, fun e => by simp⟩

/-- Claim C10: `Packet::from_bytes` never returns
`Error::NonBinaryHasAttachments`: the attachment prefix is parsed only for
the binary opcodes, so `attachments_num` is 0 whenever the check is reached
with a non-binary opcode. -/
theorem c10_nonBinaryHasAttachments_unreachable (bytes : List Char) :
    Packet.from_bytes bytes ≠ .fail .nonBinaryHasAttachments := by
  cases bytes with
  | nil => simp [Packet.from_bytes]
  | cons c rest =>
    rw [show Packet.from_bytes (c :: rest) =
        if 54 < c.toNat then .fail (.invalidOpcode c.toNat)
        else if c.toNat < 48 then .ubTransmute c.toNat
        else from_bytes_afterOp (opcodeOfChar c) rest from rfl]
    by_cases h6 : 54 < c.toNat
    · rw [if_pos h6]
      simp
    · rw [if_neg h6]
      by_cases h0 : c.toNat < 48
      · rw [if_pos h0]
        simp
      · rw [if_neg h0]
        exact afterOp_ne (opcodeOfChar c) rest

/-! ## Outbound attachment extraction (`src/data.rs`) -/

/-- `data::Data`: a payload leaf, either structured JSON or opaque bytes. -/
inductive Data where
  | JSON (v : JValue)
  | Binary (b : List Char)
deriving DecidableEq

/-- The wire text of `data::placeholder`:
`{"_placeholder":true,"num": N}` (note the space after the second colon). -/
def placeholderText (num : Nat) : List Char :=
  lbrace :: ("\"_placeholder\":true,\"num\": ".toList ++ natToChars num) ++ [rbrace]

/-- `data::placeholder`: the source builds this value as
`from_str("{\"_placeholder\":true,\"num\": N}").unwrap()`; the parsed value
is this two-field object (serde's `BTreeMap` holds the keys in sorted order
`_placeholder < num`, and the space vanishes in parsing). -/
def placeholder (num : Nat) : JValue :=
  .obj (.cons "_placeholder".toList (.bool true)
    (.cons "num".toList (.int num) .nil))

/-- Evidence that `placeholder` is the parse of the literal the source
feeds to `from_str` (at the first two attachment indices). -/
theorem placeholder_parses :
    fromStr (placeholderText 1) = some (placeholder 1) ∧
    fromStr (placeholderText 2) = some (placeholder 2) := by
  refine ⟨by decide, by decide⟩

/-- The loop of `data::encode_data`, with `n` the number of binary leaves
already seen (`placeholder_num` in the source). -/
def encodeGo : List Data → Nat → JItems × List (List Char)
  | [], _ => (.nil, [])
  | d :: rest, n =>
    match d with
    | .JSON v => (.cons v (encodeGo rest n).1, (encodeGo rest n).2)
    | .Binary b => (.cons (placeholder (n + 1)) (encodeGo rest (n + 1)).1,
        b :: (encodeGo rest (n + 1)).2)

/-- `data::encode_data`. -/
def encode_data (data : List Data) : JValue × List (List Char) :=
  (.arr (encodeGo data 0).1, (encodeGo data 0).2)

/-- The binary leaves of a payload, in order. -/
def binariesOf : List Data → List (List Char) :=
  List.filterMap fun d => match d with | .Binary b => some b | .JSON _ => none

/-- The number of binary leaves of a payload. -/
def countBinary (l : List Data) : Nat :=
  l.countP fun d => match d with | .Binary _ => true | .JSON _ => false

theorem encodeGo_spec (l : List Data) : ∀ n : Nat,
    (encodeGo l n).1.length = l.length ∧
    (encodeGo l n).2 = binariesOf l ∧
    ∀ i : Nat, (encodeGo l n).1.get? i = (l.get? i).map fun d =>
      match d with
      | .JSON v => v
      | .Binary _ => placeholder (n + countBinary (l.take (i + 1))) := by
  induction l with
  | nil =>
    intro n
    refine ⟨rfl, rfl, fun i => ?_⟩
    cases i <;> rfl
  | cons d rest ih =>
    intro n
    cases d with
    | JSON v =>
      obtain ⟨ihlen, ihbin, ihget⟩ := ih n
      refine ⟨?_, ?_, ?_⟩
      · simp [encodeGo, JItems.length, ihlen]
        omega
      · simp [encodeGo, ihbin, binariesOf]
      · intro i
        cases i with
        | zero => rfl
        | succ i =>
          rw [show (encodeGo (Data.JSON v :: rest) n).1.get? (i + 1)
              = (encodeGo rest n).1.get? i from rfl]
          rw [ihget i]
          rw [show (Data.JSON v :: rest).get? (i + 1) = rest.get? i from rfl]
          rw [show (Data.JSON v :: rest).take (i + 1 + 1)
              = Data.JSON v :: rest.take (i + 1) from rfl]
          rw [show countBinary (Data.JSON v :: rest.take (i + 1))
              = countBinary (rest.take (i + 1)) by simp [countBinary]]
    | Binary b =>
      obtain ⟨ihlen, ihbin, ihget⟩ := ih (n + 1)
      refine ⟨?_, ?_, ?_⟩
      · simp [encodeGo, JItems.length, ihlen]
        omega
      · simp [encodeGo, ihbin, binariesOf]
      · intro i
        cases i with
        | zero =>
          rw [show (encodeGo (Data.Binary b :: rest) n).1.get? 0
              = some (placeholder (n + 1)) from rfl]
          rw [show (Data.Binary b :: rest).get? 0 = some (Data.Binary b) from rfl]
          rw [show (Data.Binary b :: rest).take 1 = [Data.Binary b] from rfl]
          rw [show countBinary [Data.Binary b] = 1 by simp [countBinary]]
          rfl
        | succ i =>
          rw [show (encodeGo (Data.Binary b :: rest) n).1.get? (i + 1)
              = (encodeGo rest (n + 1)).1.get? i from rfl]
          rw [ihget i]
          rw [show (Data.Binary b :: rest).get? (i + 1) = rest.get? i from rfl]
          rw [show (Data.Binary b :: rest).take (i + 1 + 1)
              = Data.Binary b :: rest.take (i + 1) from rfl]
          rw [show countBinary (Data.Binary b :: rest.take (i + 1))
              = 1 + countBinary (rest.take (i + 1)) by simp [countBinary]; omega]
          rw [show n + (1 + countBinary (rest.take (i + 1)))
              = n + 1 + countBinary (rest.take (i + 1)) by omega]

/-- Claim C9: for every list of payload leaves, `encode_data` returns
`(json, binary)` where `json` is an array of the same length as the input in
which every JSON leaf is preserved in place and every binary leaf is
replaced by the placeholder `{"_placeholder": true, "num": k}` with `k` the
1-based count of binary leaves seen so far; `binary` is exactly the byte
vectors of the binary leaves in order, and its length is the number of
binary leaves. -/
theorem c9_encode_data_spec (l : List Data) :
    ∃ js : JItems,
      (encode_data l).1 = .arr js ∧
      js.length = l.length ∧
      (encode_data l).2 = binariesOf l ∧
      (encode_data l).2.length = countBinary l ∧
      ∀ i : Nat, js.get? i = (l.get? i).map fun d =>
        match d with
        | .JSON v => v
        | .Binary _ => placeholder (countBinary (l.take (i + 1))) := by
  obtain ⟨hlen, hbin, hget⟩ := encodeGo_spec l 0
  refine ⟨(encodeGo l 0).1, rfl, hlen, hbin, ?_, fun i => ?_⟩
  · rw [show (encode_data l).2 = (encodeGo l 0).2 from rfl, hbin]
    simp [binariesOf, countBinary, List.length_filterMap_eq_countP]
    congr 1
    funext d
    cases d <;> rfl
  · rw [hget i]
    congr 1
    funext d
    cases d <;> simp

/-! ## Per-connection message handling (`src/socket.rs`)

The `on_message` closure of `Socket::new` is modelled as a step function of
the `cur_packet` slot.  The callback table snapshot is a function from the
lookup key (the `Value::to_string()` of the event value, i.e. its JSON
text) to the handler; ack continuations are identified by `Nat` tokens.
Side effects (callback/ack invocations, transport sends, `close()`) are
collected in an `Effect` list; Rust panics (`unreachable!`,
`unwrap`/`panic!` in `fire_callback`/`fire_ack`) surface as
`StepResult.panicked`. -/

/-- A registered event handler: receives the parameters and attachments and
returns the ack payload. -/
def CbFun := List JValue → Option (List (List Char)) → List Data

/-- Snapshot of `Socket.callbacks`: lookup by `event.to_string()` key. -/
def CbTable := List Char → Option CbFun

/-- Snapshot of `Socket.acks`: ack id to continuation token. -/
def AckMap := Nat → Option Nat

/-- Observable side effects of one `on_message` invocation. -/
inductive Effect where
  | callbackInvoked (key : List Char) (args : List JValue)
      (atts : Option (List (List Char)))
  | ackInvoked (cont : Nat) (data : Option JValue) (atts : Option (List (List Char)))
  | sent (bytes : List Char)
  | closedSocket
  | namespaceSet (nsp : Option (List Char))
deriving DecidableEq

/-- Result of one `on_message` invocation: the new `cur_packet` slot plus
effects, or an abnormal exit. -/
inductive StepResult where
  | ok (st : Option Packet) (effects : List Effect)
  | panicked
  | ub (b : Nat)
deriving DecidableEq

/-- `Socket::fire_ack` (socket.rs 141-146): `unwrap` the packet id (panic if
absent, modelled as `none`), remove the continuation under that id and
invoke it with the payload and attachments; an unknown id does nothing. -/
def fire_ack (acks : AckMap) (p : Packet) :
    Option (AckMap × Option (Nat × Option JValue × Option (List (List Char)))) :=
  match p.id with
  | none => none
  | some i =>
    match acks i with
    | some cont =>
      some (fun j => if j = i then none else acks j,
        some (cont, p.data, p.get_attachments))
    | none => some (acks, none)

/-- `Socket::fire_callback` (socket.rs 124-139): panic unless the payload is
an array; panic on an empty array (`event_arr[0]`); look up the handler
under the JSON text of element 0 and invoke it with the remaining elements
and the attachments. -/
def fire_callback (cbs : CbTable) (p : Packet) :
    Option (Option (List Data) × List Effect) :=
  match p.data with
  | some (.arr (.cons ev args)) =>
    match cbs (serializeV ev) with
    | some f =>
      some (some (f args.toList p.get_attachments),
        [.callbackInvoked (serializeV ev) args.toList p.get_attachments])
    | none => some (none, [])
  | _ => none

/-- `Socket::send_ack` (socket.rs 187-193): send the encoded ack packet,
then each attachment. -/
def send_ack (nsp : Option (List Char)) (id : Nat) (json : JValue)
    (attachments : List (List Char)) : List Effect :=
  .sent (Packet.new_ack nsp id attachments.length json).encode
    :: attachments.map .sent

/-- The Event/BinaryEvent dispatch block of `on_message` (socket.rs 53-64 and
84-95): fire the callback; if the packet has an id, reply with an ack built
from the handler result via `encode_data`, or with the literal bytes `[]`
when no handler matched. -/
def handleEventPacket (cbs : CbTable) (nsp : Option (List Char)) (p : Packet) :
    Option (List Effect) :=
  match fire_callback cbs p with
  | none => none
  | some (ackOpt, effs) =>
    match p.id with
    | none => some effs
    | some i =>
      match ackOpt with
      | some ackData =>
        some (effs ++ send_ack nsp i (encode_data ackData).1 (encode_data ackData).2)
      | none => some (effs ++ [.sent ['[', ']']])

/-- The Ack/BinaryAck dispatch of `on_message`, as effects. -/
def fire_ack_eff (acks : AckMap) (p : Packet) : Option (List Effect) :=
  match fire_ack acks p with
  | none => none
  | some (_, some inv) => some [.ackInvoked inv.1 inv.2.1 inv.2.2]
  | some (_, none) => some []

/-- The tail of the decode stage (socket.rs 103-111): a packet that
`has_attachments` and is binary is buffered; otherwise the handler returns
with the slot left empty. -/
def afterDispatch (p : Packet) (effs : List Effect) : StepResult :=
  if p.has_attachments then
    (if p.opcode = .binaryEvent ∨ p.opcode = .binaryAck
     then .ok (some p) effs
     else .ok none effs)
  else .ok none effs

/-- The text-decode stage of `on_message` (socket.rs 73-111): decode the
frame (replying with an `Error` packet on failure), dispatch by opcode, and
possibly buffer a binary packet. -/
def decodeStage (cbs : CbTable) (acks : AckMap) (nsp : Option (List Char))
    (bytes : List Char) : StepResult :=
  match Packet.from_bytes bytes with
  | .fail e => .ok none [.sent (Packet.new_error nsp e).encode]
  | .panicked => .panicked
  | .ubTransmute b => .ub b
  | .ok p =>
    match p.opcode with
    | .disconnect => .ok none [.closedSocket]
    | .event =>
      match handleEventPacket cbs nsp p with
      | none => .panicked
      | some effs => afterDispatch p effs
    | .ack =>
      match fire_ack_eff acks p with
      | none => .panicked
      | some effs => afterDispatch p effs
    | .connect => afterDispatch p [.namespaceSet p.nsp]
    | _ => afterDispatch p []

/-- The `on_message` closure of `Socket::new` (socket.rs 45-112).  With a
buffered packet, the frame is appended as an attachment; when the declared
count is reached, the buffered packet is dispatched — and then, because the
dispatch branch does not `return`, the same frame falls through to the
decode stage. -/
def on_message (cbs : CbTable) (acks : AckMap) (nsp : Option (List Char))
    (st : Option Packet) (bytes : List Char) : StepResult :=
  match st with
  | some buffered =>
    if (Packet.add_attachment buffered bytes).2 then
      match (match (Packet.add_attachment buffered bytes).1.opcode with
             | .binaryEvent =>
                 handleEventPacket cbs nsp (Packet.add_attachment buffered bytes).1
             | .binaryAck => fire_ack_eff acks (Packet.add_attachment buffered bytes).1
             | _ => none) with
      | none => .panicked
      | some effs =>
        match decodeStage cbs acks nsp bytes with
        | .ok st2 effs2 => .ok st2 (effs ++ effs2)
        | .panicked => .panicked
        | .ub b => .ub b
    else .ok (some (Packet.add_attachment buffered bytes).1) []
  | none => decodeStage cbs acks nsp bytes

/-! ## Claim theorems for the connection state machine -/

/-- Callback table of scenario E2: one handler under event name `"e"`
(lookup key is the JSON text `"e"` including quotes), returning an empty
ack payload. -/
def c3Cbs : CbTable :=
  fun k => if k = serializeV (.str ['e']) then some (fun _ _ => []) else none

/-- Empty pending-ack table for scenario E2. -/
def c3Acks : AckMap := fun _ => none

/-- The buffered `BinaryEvent` of scenario E2: two attachments expected,
payload `["e", ph1, ph2]`. -/
def c3Buffered : Packet :=
  { nsp := none, opcode := .binaryEvent, id := none, attachments_num := 2,
    data := some (.arr (.cons (.str ['e'])
      (.cons (placeholder 1) (.cons (placeholder 2) .nil)))),
    attachments := none }

/-- Claim C3 (code bug): with `c3Buffered` awaiting 2 attachments, the first
binary frame `0xDE` is appended with no dispatch; the second frame `0xAD`
completes the packet — the callback fires exactly once with the original
payload elements and both frames in order, and the buffered slot returns to
empty — but the completing frame is then additionally processed: it falls
through to `Packet::from_bytes`, which fails on `0xAD`, and an `Error`
packet (`InvalidOpcode(173)`) is sent to the peer, contradicting the claim
that the completing frame undergoes no further processing. -/
theorem c3_reassembly_fallthrough :
    on_message c3Cbs c3Acks none (some c3Buffered) [Char.ofNat 222]
      = .ok (some { c3Buffered with attachments := some [[Char.ofNat 222]] }) [] ∧
    on_message c3Cbs c3Acks none
        (some { c3Buffered with attachments := some [[Char.ofNat 222]] })
        [Char.ofNat 173]
      = .ok none
          [.callbackInvoked (serializeV (.str ['e'])) [placeholder 1, placeholder 2]
             (some [[Char.ofNat 222], [Char.ofNat 173]]),
           .sent (Packet.new_error none (.invalidOpcode 173)).encode] := by
  refine ⟨by decide, by decide⟩

theorem fire_ack_some_id (acks : AckMap) (p : Packet) (i : Nat)
    (hid : p.id = some i) :
    fire_ack acks p =
      match acks i with
      | some cont =>
        some (fun j => if j = i then none else acks j,
          some (cont, p.data, p.get_attachments))
      | none => some (acks, none) := by
  unfold fire_ack
  rw [hid]

/-- Claim C8: when an Ack/BinaryAck packet with id `i` is dispatched, if
`pending_acks` contains `i` the continuation is removed and invoked exactly
once with the packet's payload and attachments, and the map afterwards has
no entry at `i` (and is unchanged elsewhere); if `pending_acks` has no entry
at `i`, nothing is invoked and the map is unchanged. -/
theorem c8_fire_ack_spec (acks : AckMap) (p : Packet) (i : Nat)
    (hid : p.id = some i) :
    (∀ cont, acks i = some cont →
      ∃ m2, fire_ack acks p = some (m2, some (cont, p.data, p.get_attachments))
        ∧ m2 i = none ∧ ∀ j, j ≠ i → m2 j = acks j) ∧
    (acks i = none → fire_ack acks p = some (acks, none)) := by
  constructor
  · intro cont hc
    rw [fire_ack_some_id acks p i hid, hc]
    exact ⟨fun j => if j = i then none else acks j, rfl, by simp,
      fun j hj => by simp [hj]⟩
  · intro hnone
    rw [fire_ack_some_id acks p i hid, hnone]

/-- Concrete ack table for the C8 witness: continuation token 7 under id 5. -/
def c8Acks : AckMap := fun j => if j = 5 then some 7 else none

/-- A concrete Ack packet with id 5 for the C8 witness. -/
def c8Packet : Packet :=
  { nsp := none, opcode := .ack, id := some 5, attachments_num := 0,
    data := some (.arr (.cons (.int 2) .nil)), attachments := none }

/-- Witness for C8 at the concrete table and packet: the continuation 7 is
removed and invoked with the payload, and id 5 is gone afterwards. -/
theorem c8_fire_ack_witness :
    ∃ m2, fire_ack c8Acks c8Packet
        = some (m2, some (7, c8Packet.data, c8Packet.get_attachments))
      ∧ m2 5 = none ∧ ∀ j, j ≠ 5 → m2 j = c8Acks j :=
  (c8_fire_ack_spec c8Acks c8Packet 5 rfl).1 7 rfl

/-! ## Connection registry and rooms (`src/server.rs`, `src/socket.rs`)

Connections are identified by their transport id (a `String`, as
`socket.id()` returns).  The registry state bundles the server's `clients`
vector and `server_rooms` map together with each connection's
`rooms_joined` vector. -/

structure Registry where
  clients : List String
  rooms : String → Option (List String)
  joined : String → List String

/-- The registry of a fresh `Server`. -/
def emptyRegistry : Registry :=
  { clients := [], rooms := fun _ => none, joined := fun _ => [] }

/-- The `on_connection` registration of `Server::from_server`
(server.rs 34-50): push the new socket onto `clients` and insert its
self-named room; the socket starts with an empty `rooms_joined`. -/
def register (i : String) (st : Registry) : Registry :=
  { clients := st.clients ++ [i],
    rooms := fun r => if r = i then some [i] else st.rooms r,
    joined := fun s => if s = i then [] else st.joined s }

/-- `Socket::join` (socket.rs 166-178). -/
def join (i room : String) (st : Registry) : Registry :=
  if room ∈ st.joined i then st
  else
    { clients := st.clients,
      joined := fun s => if s = i then st.joined i ++ [room] else st.joined s,
      rooms := fun r =>
        if r = room then
          some (match st.rooms room with
                | some l => l ++ [i]
                | none => [i])
        else st.rooms r }

/-- `Socket::leave` (socket.rs 180-185): `server_rooms.remove(&room)` deletes
the whole map entry (evicting every member), and the binding taken on
`rooms_joined` is never used, so the caller's `rooms_joined` is untouched.
The calling socket is not consulted at all. -/
def leave (room : String) (st : Registry) : Registry :=
  match st.rooms room with
  | some _ => { st with rooms := fun r => if r = room then none else st.rooms r }
  | none => st

/-- The index-search loop of `Socket::close`: index of the first member with
the closing socket's id. -/
def findIdxAux (i : String) : List String → Nat → Option Nat
  | [], _ => none
  | x :: rest, k => if x = i then some k else findIdxAux i rest (k + 1)

/-- `i = 0; for (index, so) in ... { if so.id() == self.id() { i = index;
break } }`: first matching index, defaulting to 0. -/
def findIdxD (i : String) (l : List String) : Nat := (findIdxAux i l 0).getD 0

/-- `Vec::swap_remove`: replace index `idx` by the last element and pop;
panics (`none`) when `idx` is out of bounds. -/
def swapRemove (l : List String) (idx : Nat) : Option (List String) :=
  match l.getLast? with
  | none => none
  | some last => if idx < l.length then some ((l.set idx last).dropLast) else none

/-- The room loop of `Socket::close` (socket.rs 250-263):
`map.get_mut(room).unwrap()` (panic when the room is gone), then
`swap_remove` at the found index. -/
def closeRooms (i : String) : List String → (String → Option (List String)) →
    Option (String → Option (List String))
  | [], rooms => some rooms
  | r :: rest, rooms =>
    (rooms r).bind fun members =>
      (swapRemove members (findIdxD i members)).bind fun members2 =>
        closeRooms i rest (fun x => if x = r then some members2 else rooms x)

/-- Result of `Socket::close`: the transport is closed first, then the room
loop runs.  Neither `clients` nor any `rooms_joined` is modified. -/
structure CloseOut where
  transportClosed : Bool
  reg : Registry

/-- `Socket::close` (socket.rs 246-264). -/
def close (i : String) (st : Registry) : Option CloseOut :=
  (closeRooms i (st.joined i) st.rooms).map
    fun rooms2 => ⟨true, { st with rooms := rooms2 }⟩

/-- One registry operation. -/
inductive RegOp where
  | register (i : String)
  | join (i room : String)
  | leave (i room : String)
  | close (i : String)

/-- Apply one operation (`none` = the operation panicked). -/
def applyOp (st : Registry) : RegOp → Option Registry
  | .register i => some (register i st)
  | .join i room => some (join i room st)
  | .leave _ room => some (leave room st)
  | .close i => (close i st).map fun out => out.reg

/-- Apply a sequence of operations. -/
def applyOps : Registry → List RegOp → Option Registry
  | st, [] => some st
  | st, op :: rest =>
    match applyOp st op with
    | some st2 => applyOps st2 rest
    | none => none

/-- The registry invariant of spec §4.5: forward — every room a client has
joined lists it as a member; reverse — every membership is the implicit
self-room or recorded in `rooms_joined`. -/
def registryInvariant (st : Registry) : Prop :=
  (∀ c ∈ st.clients, ∀ r ∈ st.joined c, ∃ l, st.rooms r = some l ∧ c ∈ l) ∧
  (∀ r l c, st.rooms r = some l → c ∈ l → r = c ∨ r ∈ st.joined c)

/-! ## Close-loop lemmas -/

theorem first_occ {a : String} {l : List String} (h : a ∈ l) :
    ∃ l₁ l₂, l = l₁ ++ a :: l₂ ∧ a ∉ l₁ := by
  induction l with
  | nil => simp at h
  | cons b t ih =>
    by_cases hb : b = a
    · subst hb
      exact ⟨[], t, rfl, by simp⟩
    · have ht : a ∈ t := by
        rcases List.mem_cons.mp h with h1 | h1
        · exact absurd h1.symm hb
        · exact h1
      obtain ⟨l₁, l₂, rfl, hnot⟩ := ih ht
      exact ⟨b :: l₁, l₂, rfl, by
        simp only [List.mem_cons]
        rintro (h2 | h2)
        · exact hb h2.symm
        · exact hnot h2⟩

theorem set_append_cons (l₁ : List String) (a b : String) (t : List String) :
    (l₁ ++ a :: t).set l₁.length b = l₁ ++ b :: t := by
  induction l₁ with
  | nil => rfl
  | cons x l₁ ih => simp [List.set, ih]

theorem findIdxAux_first (i : String) (l₂ : List String) :
    ∀ (l₁ : List String) (k : Nat), i ∉ l₁ →
    findIdxAux i (l₁ ++ i :: l₂) k = some (k + l₁.length) := by
  intro l₁
  induction l₁ with
  | nil => intro k _; simp [findIdxAux]
  | cons x l₁ ih =>
    intro k hx
    have hxi : x ≠ i := fun he => hx (by simp [he])
    have hni : i ∉ l₁ := fun he => hx (by simp [he])
    have hstep : findIdxAux i ((x :: l₁) ++ i :: l₂) k
        = findIdxAux i (l₁ ++ i :: l₂) (k + 1) := by
      show (if x = i then some k else findIdxAux i (l₁ ++ i :: l₂) (k + 1)) = _
      rw [if_neg hxi]
    rw [hstep, ih (k + 1) hni]
    congr 1
    simp [List.length_cons]
    omega

theorem findIdxD_first (i : String) (l₁ l₂ : List String) (h : i ∉ l₁) :
    findIdxD i (l₁ ++ i :: l₂) = l₁.length := by
  rw [findIdxD, findIdxAux_first i l₂ l₁ 0 h]
  simp

theorem swapRemove_eq (l : List String) (idx : Nat) (last : String)
    (h : l.getLast? = some last) :
    swapRemove l idx
      = if idx < l.length then some ((l.set idx last).dropLast) else none := by
  unfold swapRemove
  rw [h]

theorem swapRemove_count_one (i : String) (l : List String) (h : l.count i = 1) :
    ∃ l2, swapRemove l (findIdxD i l) = some l2 ∧ i ∉ l2 := by
  have hmem : i ∈ l := List.count_pos_iff.mp (by omega)
  obtain ⟨l₁, l₂, rfl, hnot1⟩ := first_occ hmem
  have hcount : (l₁ ++ i :: l₂).count i = l₁.count i + (l₂.count i + 1) := by
    simp [List.count_append, List.count_cons]
  have hc1 : l₁.count i = 0 := by omega
  have hc2 : l₂.count i = 0 := by omega
  have hnot2 : i ∉ l₂ := List.count_eq_zero.mp hc2
  rw [findIdxD_first i l₁ l₂ hnot1]
  rcases List.eq_nil_or_concat l₂ with rfl | ⟨l₂', z, rfl⟩
  · refine ⟨l₁, ?_, hnot1⟩
    rw [swapRemove_eq _ _ i (List.getLast?_concat l₁), if_pos (by simp),
      show (l₁ ++ [i]).set l₁.length i = l₁ ++ [i] from set_append_cons l₁ i i [],
      List.dropLast_concat]
  · simp only [List.concat_eq_append] at hnot2 ⊢
    have hz : i ≠ z := by
      intro he
      exact hnot2 (by simp [he])
    have hlast : (l₁ ++ i :: (l₂' ++ [z])).getLast? = some z := by
      rw [show l₁ ++ i :: (l₂' ++ [z]) = (l₁ ++ i :: l₂') ++ [z] by simp]
      exact List.getLast?_concat _
    refine ⟨l₁ ++ z :: l₂', ?_, ?_⟩
    · rw [swapRemove_eq _ _ z hlast, if_pos (by simp), set_append_cons l₁ i z (l₂' ++ [z]),
        show l₁ ++ z :: (l₂' ++ [z]) = (l₁ ++ z :: l₂') ++ [z] by simp,
        List.dropLast_concat]
    · simp only [List.mem_append, List.mem_cons]
      rintro (h2 | h2 | h2)
      · exact hnot1 h2
      · exact hz h2
      · exact hnot2 (by simp [h2])

theorem closeRooms_spec (i : String) (rs : List String) :
    ∀ rooms : String → Option (List String), rs.Nodup →
    (∀ r ∈ rs, ∃ l, rooms r = some l ∧ l.count i = 1) →
    ∃ rooms2, closeRooms i rs rooms = some rooms2 ∧
      (∀ r ∈ rs, ∃ l2, rooms2 r = some l2 ∧ i ∉ l2) ∧
      (∀ r, r ∉ rs → rooms2 r = rooms r) := by
  induction rs with
  | nil =>
    intro rooms _ _
    exact ⟨rooms, rfl, by simp, fun r _ => rfl⟩
  | cons r rest ih =>
    intro rooms hnd hmem
    obtain ⟨l, hl, hcount⟩ := hmem r (by simp)
    obtain ⟨l2, hsw, hnotin⟩ := swapRemove_count_one i l hcount
    have hrnotin : r ∉ rest := (List.nodup_cons.mp hnd).1
    have hnd2 : rest.Nodup := (List.nodup_cons.mp hnd).2
    have hmem2 : ∀ r2 ∈ rest,
        ∃ l', (fun x => if x = r then some l2 else rooms x) r2 = some l'
          ∧ l'.count i = 1 := by
      intro r2 hr2
      have hne : r2 ≠ r := fun he => hrnotin (he ▸ hr2)
      obtain ⟨l', hl', hc'⟩ := hmem r2 (by simp [hr2])
      exact ⟨l', by simp [hne, hl'], hc'⟩
    obtain ⟨rooms2, hcr, hpost, hframe⟩ := ih _ hnd2 hmem2
    have hstep : closeRooms i (r :: rest) rooms
        = closeRooms i rest (fun x => if x = r then some l2 else rooms x) := by
      show (rooms r).bind _ = _
      rw [hl]
      simp only [Option.some_bind]
      rw [hsw]
      simp only [Option.some_bind]
    refine ⟨rooms2, by rw [hstep]; exact hcr, ?_, ?_⟩
    · intro r2 hr2
      rcases List.mem_cons.mp hr2 with rfl | hr2
      · refine ⟨l2, ?_, hnotin⟩
        rw [hframe r2 hrnotin]
        simp
      · exact hpost r2 hr2
    · intro r2 hr2
      have hne : r2 ≠ r := fun he => hr2 (by simp [he])
      have hnr : r2 ∉ rest := fun he => hr2 (by simp [he])
      rw [hframe r2 hnr]
      simp [hne]

/-! ## Claim theorems for the registry -/

/-- The operation sequence of claim C4's scenario: two connections join room
`"r"`, then the first one leaves it. -/
def c4Ops : List RegOp :=
  [.register "a", .register "b", .join "a" "r", .join "b" "r", .leave "a" "r"]

/-- Claim C4 (code bug): after `a.join("r"); b.join("r"); a.leave("r")`, the
whole `rooms["r"]` entry is gone — `b` has been evicted although the claim
says other members are left in place — and `"r"` is still recorded in
`a.rooms_joined` (and in `b`'s), although the claim says `leave` removes it
from both sides; in particular `join(r)` then `leave(r)` does not restore
the pre-join state for `(a, "r")`. -/
theorem c4_leave_broken :
    ∃ st, applyOps emptyRegistry c4Ops = some st ∧
      st.rooms "r" = none ∧
      "r" ∈ st.joined "a" ∧
      "r" ∈ st.joined "b" := by
  refine ⟨_, rfl, by decide, by decide, by decide⟩

/-- The operation sequence of claim C6's scenario. -/
def c6Ops : List RegOp := [.register "a", .join "a" "r", .leave "a" "r"]

/-- Claim C6 (code bug): after the operation sequence
`register a; a.join("r"); a.leave("r")` the registry invariant of §4.5 is
violated: `a` is a live client and `"r" ∈ a.rooms_joined`, but `rooms["r"]`
does not exist, so `a ∈ rooms["r"]` fails. -/
theorem c6_registry_invariant_violated :
    ∃ st, applyOps emptyRegistry c6Ops = some st ∧
      "a" ∈ st.clients ∧ "r" ∈ st.joined "a" ∧ st.rooms "r" = none ∧
      ¬ registryInvariant st := by
  refine ⟨_, rfl, by decide, by decide, by decide, ?_⟩
  rintro ⟨hfwd, _⟩
  obtain ⟨l, hl, _⟩ := hfwd "a" (by decide) "r" (by decide)
  rw [show (join "a" "r" (register "a" emptyRegistry) |> leave "r").rooms "r"
      = none from by decide] at hl
  exact Option.noConfusion hl

/-- The pre-close operation sequence of scenario E4. -/
def c5Ops : List RegOp := [.register "c", .join "c" "r1", .join "c" "r2"]

/-- Claim C5, counterexample: a connection that has joined `{"r1","r2"}` is
closed; it is removed from `rooms["r1"]` and `rooms["r2"]` and the transport
is closed, but — contrary to the claim — it is still present in the
registry's `clients` list (nothing in `Socket::close` or `Server` removes
it). -/
theorem c5_close_counterexample :
    ∃ st out, applyOps emptyRegistry c5Ops = some st ∧ close "c" st = some out ∧
      out.transportClosed = true ∧
      out.reg.rooms "r1" = some [] ∧
      out.reg.rooms "r2" = some [] ∧
      "c" ∈ out.reg.clients := by
  refine ⟨_, _, rfl, rfl, by decide, by decide, by decide, by decide⟩

/-- Claim C5 (amended): after `close()` on a connection `i` whose joined
rooms are distinct and each present in the registry with `i` a unique
member, the transport is closed and `i` is removed from `rooms[r]` for every
joined room `r` (other rooms are untouched) — but the connection remains in
the registry's `clients` list, which is unchanged. -/
theorem c5_close_spec (st : Registry) (i : String)
    (hnd : (st.joined i).Nodup)
    (hmem : ∀ r ∈ st.joined i, ∃ l, st.rooms r = some l ∧ l.count i = 1) :
    ∃ out, close i st = some out ∧ out.transportClosed = true ∧
      out.reg.clients = st.clients ∧
      (∀ r ∈ st.joined i, ∃ l2, out.reg.rooms r = some l2 ∧ i ∉ l2) ∧
      (∀ r, r ∉ st.joined i → out.reg.rooms r = st.rooms r) := by
  obtain ⟨rooms2, hcr, hpost, hframe⟩ := closeRooms_spec i (st.joined i) st.rooms hnd hmem
  refine ⟨⟨true, { st with rooms := rooms2 }⟩, ?_, rfl, rfl, hpost, hframe⟩
  unfold close
  rw [hcr]
  rfl

/-- Concrete registry for the C5 witness: connection `"c"` has joined
`"r1"` and `"r2"`, the room `"r2"` having one other member. -/
def c5WitnessReg : Registry :=
  { clients := ["c"],
    rooms := fun r =>
      if r = "r1" then some ["c"]
      else if r = "r2" then some ["b", "c"]
      else if r = "c" then some ["c"] else none,
    joined := fun s => if s = "c" then ["r1", "r2"] else [] }

/-- Witness for C5 (amended) at `c5WitnessReg`. -/
theorem c5_close_witness :
    ∃ out, close "c" c5WitnessReg = some out ∧ out.transportClosed = true ∧
      out.reg.clients = c5WitnessReg.clients ∧
      (∀ r ∈ c5WitnessReg.joined "c",
        ∃ l2, out.reg.rooms r = some l2 ∧ "c" ∉ l2) ∧
      (∀ r, r ∉ c5WitnessReg.joined "c"
        → out.reg.rooms r = c5WitnessReg.rooms r) :=
  c5_close_spec c5WitnessReg "c" (by decide)
    (by
      intro r hr
      have hr2 : r = "r1" ∨ r = "r2" := by
        simpa [c5WitnessReg] using hr
      rcases hr2 with rfl | rfl
      · exact ⟨["c"], by decide, by decide⟩
      · exact ⟨["b", "c"], by decide, by decide⟩)

end SocketIO
